import Mathlib

/-! liquid-usrp: `tx_rrc` and `ofdmframe_rx`

A shallow embedding of the two command-line programs `src/tx_rrc.cc` and
`src/ofdmframe_rx.cc`, and the properties of their argument validation,
rate arithmetic, buffer indexing and call sequencing.

Conventions of the embedding.

* A C `float`/`double` is a `FloatVal`: an exact rational value, an infinity or
  NaN.  Comparisons follow IEEE 754 (every ordered comparison with NaN is
  false).  A zero carries no sign.
* The `float` products and quotients that decide the block counts and the
  receive sample rate are rounded to binary32 (`fmul32`, `fdiv32`: round to
  nearest, ties to even, 24-bit significand, subnormals, overflow to infinity).
  The `double` quotient `32e6 / symbol_rate` and the quotients
  `usrp_symbol_rate` and `r` are kept as exact quotients (`div`).
* `unsigned int` is a natural number below `2 ^ 32`; wrap-around is written
  out as `% 4294967296`.
* The conversion of a floating value to `unsigned int` is defined by C++ only
  when the truncated value fits; what the platform produces otherwise is the
  parameter `undef`.
* The external DSP library and the USRP driver are not part of the repository.
  A run of a program is the list of calls it makes into them, in order,
  together with the exit status.  Every call into them is taken to return.
* The array `unsigned int p[M]` of `ofdmframe_rx` lives on the stack and its
  length is never checked; `stack` is the number of bytes the process can use
  for it, and a process whose array does not fit is killed.
-/

/-- Value of a C floating-point object: finite with exact value `q`, an infinity, or NaN. -/
inductive FloatVal where
  | fin (q : ℚ)
  | inf (neg : Bool)
  | nan
  deriving DecidableEq, Repr

namespace FloatVal

/-- The C operator `<` on floating values: false whenever an operand is NaN. -/
def lt : FloatVal → FloatVal → Bool
  | fin a, fin b => decide (a < b)
  | fin _, inf s => !s
  | inf s, fin _ => s
  | inf s, inf t => s && !t
  | _, _ => false

/-- The C operator `>` on floating values. -/
def gt (x y : FloatVal) : Bool := lt y x

/-- The exact product of two floating values, with the IEEE 754 rules for infinities and
NaN; `fmul32` rounds it to binary32. -/
def mul : FloatVal → FloatVal → FloatVal
  | fin a, fin b => fin (a * b)
  | fin a, inf s => if a = 0 then nan else inf (xor (decide (a < 0)) s)
  | inf s, fin b => if b = 0 then nan else inf (xor s (decide (b < 0)))
  | inf s, inf t => inf (xor s t)
  | _, _ => nan

/-- The exact quotient of two floating values, with the IEEE 754 rules for infinities, NaN
and a zero divisor; `fdiv32` rounds it to binary32. -/
def div : FloatVal → FloatVal → FloatVal
  | fin a, fin b =>
      if b = 0 then (if a = 0 then nan else inf (decide (a < 0))) else fin (a / b)
  | fin _, inf _ => fin 0
  | inf s, fin b => inf (xor s (decide (b < 0)))
  | _, _ => nan

/-- Truncation toward zero, the rounding of a C floating-to-integer conversion. -/
def trunc (q : ℚ) : ℤ := if 0 ≤ q then ⌊q⌋ else ⌈q⌉

/-- The conversion `(unsigned int)x`.  When the truncated value fits in 32 bits it is the
result; otherwise C++ leaves the result undefined and the platform value `undef x`,
reduced to 32 bits, is used. -/
def toUInt32 (undef : FloatVal → ℕ) : FloatVal → ℕ
  | fin q =>
      if 0 ≤ trunc q ∧ trunc q < 4294967296 then (trunc q).toNat
      else undef (fin q) % 4294967296
  | x => undef x % 4294967296

/-- Rounding of a rational to the nearest integer, ties to the even one. -/
def roundNE (x : ℚ) : ℤ :=
  if x - ⌊x⌋ < 1 / 2 then ⌊x⌋
  else if 1 / 2 < x - ⌊x⌋ then ⌊x⌋ + 1
  else if ⌊x⌋ % 2 = 0 then ⌊x⌋
  else ⌊x⌋ + 1

/-- The exponent of the unit in the last place of the binary32 values around `q`: 23 binary
places below the leading bit of `q`, and never below `-149` (the subnormal spacing). -/
def ulpExp (q : ℚ) : ℤ := max (Int.log 2 |q| - 23) (-149)

/-- Rounding of an exact result to binary32: to the nearest multiple of the unit in the last
place, ties to even; a result of magnitude `2 ^ 128` or more overflows to an infinity. -/
def round32 (q : ℚ) : FloatVal :=
  if q = 0 then fin 0
  else
    let y : ℚ := roundNE (q / 2 ^ ulpExp q) * 2 ^ ulpExp q
    if (2 : ℚ) ^ (128 : ℤ) ≤ |y| then inf (decide (q < 0)) else fin y

/-- The C operator `*` on two `float` operands: the exact product rounded to binary32. -/
def fmul32 (x y : FloatVal) : FloatVal :=
  match mul x y with
  | fin q => round32 q
  | z => z

/-- The C operator `/` on two `float` operands: the exact quotient rounded to binary32. -/
def fdiv32 (x y : FloatVal) : FloatVal :=
  match div x y with
  | fin q => round32 q
  | z => z

/-- The conversion `(float)n` of an `unsigned int`. -/
def ofUInt32 (n : ℕ) : FloatVal := round32 n

end FloatVal

/-- The conversion of an `int` (the result of `atoi`) to `unsigned int`. -/
def intToUInt32 (v : ℤ) : ℕ := (v % 4294967296).toNat

/-- A C `for (i = start; i < bound; i += step) body` over an `unsigned int` counter,
threading the loop state.  `fuel` bounds the number of iterations. -/
def forLoop {σ : Type} (body : ℕ → σ → σ) (bound step : ℕ) : ℕ → ℕ → σ → σ
  | 0, _, s => s
  | fuel + 1, i, s =>
      if i < bound then forLoop body bound step fuel ((i + step) % 4294967296) (body i s)
      else s

/-- What a run of a program leaves behind: the calls made, in order, and the exit status. -/
structure Result (ε : Type) where
  trace : List ε
  status : ℤ
  deriving DecidableEq, Repr

/-- What a run leaves behind when the process may be killed: the calls made, in order, and
the exit status, `none` when the process was killed by the operating system. -/
structure Outcome (ε : Type) where
  trace : List ε
  status : Option ℤ
  deriving DecidableEq, Repr

/-! ## `src/tx_rrc.cc` -/

namespace tx_rrc

/-- One option as `getopt(argc, argv, "f:s:t:m:b:qvuh")` hands it to the `switch`, with its
argument already converted by `atoi`, or by `atof` and the narrowing to the `float` variable
it is stored in.  `unknown` is every other return value of
`getopt` (an unrecognised option or a missing argument); the diagnostic that `getopt` itself
writes for it is not a call of `main` and is not recorded. -/
inductive Opt where
  | f (x : FloatVal)
  | s (x : FloatVal)
  | t (x : FloatVal)
  | m (v : ℤ)
  | b (x : FloatVal)
  | q
  | v
  | u
  | h
  | unknown
  deriving DecidableEq, Repr

/-- The command-line variables of `main`. -/
structure Args where
  verbose : Bool
  frequency : FloatVal
  symbol_rate : FloatVal
  num_seconds : FloatVal
  m : ℕ
  beta : FloatVal
  deriving DecidableEq, Repr

/-- A call into the C library, the DSP library or the USRP driver made by `tx_rrc`.
`printf` records its format string.  The `execute` calls record the indices of the
array elements whose addresses they are given. -/
inductive Event where
  | printf (fmt : String)
  | new_usrp_io
  | set_tx_freq (ch : ℕ) (freq : FloatVal)
  | set_tx_interp (rate : ℕ)
  | enable_auto_tx (ch : ℕ)
  | get_tx_port (ch : ℕ)
  | design_rrc_filter (k m : ℕ) (beta dt : FloatVal) (h_len : ℕ)
  | interp_crcf_create (k h_len : ℕ)
  | resamp2_crcf_create (m : ℕ) (fc As : FloatVal)
  | resamp_crcf_create (r : FloatVal) (h_len : ℕ) (fc As : FloatVal) (npfb : ℕ)
  | modem_create (bps : ℕ)
  | start_tx (ch : ℕ)
  | modem_gen_rand_sym
  | modem_modulate (y : ℕ)
  | interp_crcf_execute (x y : ℕ)
  | resamp2_crcf_interp_execute (x y : ℕ)
  | resamp_crcf_execute (x y num_written : ℕ)
  | gport2_produce (n : ℕ)
  | stop_tx (ch : ℕ)
  | resamp2_crcf_destroy
  | resamp_crcf_destroy
  | interp_crcf_destroy
  | modem_destroy
  | delete_usrp_io
  deriving DecidableEq, Repr

/-- The function `usage()`. -/
def usage : List Event :=
  [ .printf "packet_tx:\n",
    .printf "  f     :   center frequency [Hz]\n",
    .printf "  s     :   symbol rate [Hz] (62.5kHz min, 8MHz max)\n",
    .printf "  t     :   run time [seconds]\n",
    .printf "  m     :   filter delay [symbols]\n",
    .printf "  b     :   filter excess bandwidth factor [0.0 min, 1.0 max]\n",
    .printf "  q     :   quiet\n",
    .printf "  v     :   verbose\n",
    .printf "  u,h   :   usage/help\n" ]

/-- The initialiser `float min_symbol_rate = (32e6 / 512.0)`. -/
def min_symbol_rate : FloatVal := .fin (32000000 / 512)

/-- The initialiser `float max_symbol_rate = (32e6 / 4.0)`. -/
def max_symbol_rate : FloatVal := .fin (32000000 / 4)

/-- The initial values of the command-line variables (`0.3f` is `5033165 / 2 ^ 24`). -/
def defaults : Args :=
  { verbose := true
    frequency := .fin 462000000
    symbol_rate := min_symbol_rate
    num_seconds := .fin 5
    m := 3
    beta := .fin (5033165 / 16777216) }

/-- The `while ((d = getopt(...)) != EOF) switch (d)` loop: `none` when the `u`/`h`/`default`
case is reached (which calls `usage()` and returns), the final variables otherwise. -/
def getopt_loop : List Opt → Args → Option Args
  | [], a => some a
  | .f x :: rest, a => getopt_loop rest { a with frequency := x }
  | .s x :: rest, a => getopt_loop rest { a with symbol_rate := x }
  | .t x :: rest, a => getopt_loop rest { a with num_seconds := x }
  | .m v :: rest, a => getopt_loop rest { a with m := intToUInt32 v }
  | .b x :: rest, a => getopt_loop rest { a with beta := x }
  | .q :: rest, a => getopt_loop rest { a with verbose := false }
  | .v :: rest, a => getopt_loop rest { a with verbose := true }
  | .u :: _, _ => none
  | .h :: _, _ => none
  | .unknown :: _, _ => none

/-- The variable `interp_rate`: `(unsigned int)(32e6 / symbol_rate)`, then
`(interp_rate >> 2) << 2`.  The `double` quotient is taken as the exact quotient. -/
def interp_rate (undef : FloatVal → ℕ) (symbol_rate : FloatVal) : ℕ :=
  let interp_rate := FloatVal.toUInt32 undef (FloatVal.div (.fin 32000000) symbol_rate)
  ((interp_rate >>> 2) <<< 2) % 4294967296

/-- The `if … else if …` chain of range checks: the format string of the error printed,
or `none` when every check passes. -/
def validate (a : Args) : Option String :=
  if FloatVal.gt a.symbol_rate max_symbol_rate then
    some "error: maximum symbol_rate exceeded (%8.4f MHz)\n"
  else if FloatVal.lt a.symbol_rate min_symbol_rate then
    some "error: minimum symbol_rate exceeded (%8.4f kHz)\n"
  else if a.m < 1 || a.m > 20 then
    some "error: filter length m must be in [1,20]\n"
  else if FloatVal.lt a.beta (.fin 0) || FloatVal.gt a.beta (.fin 1) then
    some "error: filter excess bandwidth beta must be in [0.0,1.0]\n"
  else none

/-- The variable `usrp_symbol_rate`: `32e6f / (float)(interp_rate)`, as the exact quotient. -/
def usrp_symbol_rate (interp_rate : ℕ) : FloatVal :=
  FloatVal.div (.fin 32000000) (FloatVal.ofUInt32 interp_rate)

/-- The resampling rate `r = usrp_symbol_rate / symbol_rate`, as the exact quotient. -/
def r (interp_rate : ℕ) (symbol_rate : FloatVal) : FloatVal :=
  FloatVal.div (usrp_symbol_rate interp_rate) symbol_rate

/-- The variable `num_blocks`: `(unsigned int)((4.0f*symbol_rate*num_seconds)/(512))`, every
operation on `float` operands. -/
def num_blocks (undef : FloatVal → ℕ) (symbol_rate num_seconds : FloatVal) : ℕ :=
  FloatVal.toUInt32 undef
    (FloatVal.fdiv32 (FloatVal.fmul32 (FloatVal.fmul32 (.fin 4) symbol_rate) num_seconds)
      (.fin 512))

/-- The variable `num_symbols`. -/
def num_symbols : ℕ := 128

/-- The variable `k`, samples per symbol of the Nyquist filter. -/
def k : ℕ := 2

/-- The variable `h_len`: `2*k*m+1` in `unsigned int` arithmetic. -/
def h_len (m : ℕ) : ℕ := (2 * k * m + 1) % 4294967296

/-- One iteration of the block loop `for (i=0; i<num_blocks; i++)`.  `nw n` is the count that
the `n`-th `resamp_crcf_execute` call of this block stores in `num_written`. -/
def block (nw : ℕ → ℕ) (tr : List Event) : List Event :=
  let tr := forLoop (fun n tr => tr ++ [.modem_gen_rand_sym, .modem_modulate n])
    num_symbols 1 num_symbols 0 tr
  let tr := forLoop (fun n tr => tr ++ [.interp_crcf_execute n (2 * n)])
    num_symbols 1 num_symbols 0 tr
  let tr := forLoop (fun n tr => tr ++ [.resamp2_crcf_interp_execute n (2 * n)])
    (2 * num_symbols) 1 (2 * num_symbols) 0 tr
  let st := forLoop
    (fun n (st : List Event × ℕ) =>
      (st.1 ++ [.resamp_crcf_execute n st.2 (nw n)], (st.2 + nw n) % 4294967296))
    (4 * num_symbols) 1 (4 * num_symbols) 0 (tr, 0)
  st.1 ++ [.gport2_produce st.2]

/-- Everything `main` does once the range checks have passed. -/
def run (undef : FloatVal → ℕ) (nw : ℕ → ℕ → ℕ) (a : Args) (interp_rate : ℕ) : List Event :=
  let r := r interp_rate a.symbol_rate
  let num_blocks := num_blocks undef a.symbol_rate a.num_seconds
  let tr : List Event :=
    [ .printf "frequency   :   %12.8f [MHz]\n",
      .printf "symbol_rate :   %12.8f [kHz] (usrp : %12.8f [kHz])\n",
      .printf "verbosity   :   %s\n",
      .printf "resampling rate : %12.8f\n",
      .new_usrp_io,
      .set_tx_freq 0 a.frequency,
      .set_tx_interp interp_rate,
      .enable_auto_tx 0,
      .get_tx_port 0,
      .design_rrc_filter k a.m a.beta (.fin 0) (h_len a.m),
      .interp_crcf_create k (h_len a.m),
      .resamp2_crcf_create 37 (.fin 0) (.fin 60),
      .resamp_crcf_create r 13 (.fin (1 / 2)) (.fin 60) 32,
      .modem_create 2,
      .start_tx 0 ]
  let tr := forLoop (fun i tr => block (nw i) tr) num_blocks 1 num_blocks 0 tr
  tr ++
    [ .stop_tx 0,
      .printf "usrp data transfer complete\n",
      .resamp2_crcf_destroy,
      .resamp_crcf_destroy,
      .interp_crcf_destroy,
      .modem_destroy,
      .delete_usrp_io ]

/-- The function `main`, on the option sequence that `getopt` yields.  Every path returns 0. -/
def main (undef : FloatVal → ℕ) (nw : ℕ → ℕ → ℕ) (opts : List Opt) : Result Event :=
  match getopt_loop opts defaults with
  | none => ⟨usage, 0⟩
  | some a =>
      let interp_rate := interp_rate undef a.symbol_rate
      match validate a with
      | some msg => ⟨[.printf msg], 0⟩
      | none => ⟨run undef nw a interp_rate, 0⟩

/-- Whether a call goes to the USRP driver or the DSP library (everything but `printf`). -/
def Event.isExternal : Event → Bool
  | .printf _ => false
  | _ => true

end tx_rrc

/-! ## `src/ofdmframe_rx.cc` -/

namespace ofdmframe_rx

/-- One option as `getopt(argc, argv, "f:b:M:t:qvuh")` hands it to the `switch`, with its
argument already converted by `atoi`, or by `atof` and the narrowing to the `float` variable
it is stored in.  `unknown` is every other return value of
`getopt` (an unrecognised option or a missing argument); the diagnostic that `getopt` itself
writes for it is not a call of `main` and is not recorded. -/
inductive Opt where
  | f (x : FloatVal)
  | b (x : FloatVal)
  | M (v : ℤ)
  | t (x : FloatVal)
  | q
  | v
  | u
  | h
  | unknown
  deriving DecidableEq, Repr

/-- The command-line variables of `main`. -/
structure Args where
  verbose : Bool
  frequency : FloatVal
  bandwidth : FloatVal
  num_seconds : FloatVal
  M : ℕ
  deriving DecidableEq, Repr

/-- A call into the C library, the DSP library or the USRP driver made by `ofdmframe_rx`,
over samples of type `α`.  `printf`/`fprintf_stderr` record the format string,
`resamp2_crcf_decim_execute i x0 x1` is the call given `&data_rx[i]`, with the contents of
`data_rx[i]` and `data_rx[i+1]` that it reads (`none` for an element that holds no
received sample), and `ofdmframesync_execute n` is the call given `&decim_out` and the
sample count `n`.  The function `callback` handed to `ofdmframesync_create` is run by the
library, not by `main`; it only prints a line and is not part of the trace. -/
inductive Event (α : Type) where
  | printf (fmt : String)
  | fprintf_stderr (fmt : String)
  | new_usrp_io
  | set_rx_freq (ch : ℕ) (freq : FloatVal)
  | set_rx_samplerate (rate : FloatVal)
  | enable_auto_tx (ch : ℕ)
  | get_rx_port (ch : ℕ)
  | resamp2_crcf_create (m : ℕ) (fc As : FloatVal)
  | ofdmframe_init_default_sctype (M : ℕ)
  | ofdmframesync_create (M cp_len : ℕ)
  | ofdmframesync_print
  | start_rx (ch : ℕ)
  | gport_consume (n : ℕ)
  | resamp2_crcf_decim_execute (i : ℕ) (x0 x1 : Option α)
  | ofdmframesync_execute (n : ℕ)
  | stop_rx (ch : ℕ)
  | resamp2_crcf_destroy
  | ofdmframesync_destroy
  | delete_usrp_io
  deriving DecidableEq, Repr

/-- The macro `USRP_CHANNEL`. -/
def USRP_CHANNEL : ℕ := 0

/-- The function `usage()`. -/
def usage {α : Type} : List (Event α) :=
  [ .printf "ofdmframe_rx -- receive OFDM packets\n",
    .printf "  f     :   center frequency [Hz]\n",
    .printf "  b     :   bandwidth [Hz]\n",
    .printf "  M     :   number of subcarriers, default: 64\n",
    .printf "  t     :   run time [seconds]\n",
    .printf "  q     :   quiet\n",
    .printf "  v     :   verbose\n",
    .printf "  u,h   :   usage/help\n" ]

/-- The initialiser `float min_bandwidth = (32e6 / 512.0)`. -/
def min_bandwidth : FloatVal := .fin (32000000 / 512)

/-- The initialiser `float max_bandwidth = (32e6 / 4.0)`. -/
def max_bandwidth : FloatVal := .fin (32000000 / 4)

/-- The initial values of the command-line variables. -/
def defaults : Args :=
  { verbose := true
    frequency := .fin 462000000
    bandwidth := min_bandwidth
    num_seconds := .fin 5
    M := 64 }

/-- The variable `cp_len`. -/
def cp_len : ℕ := 16

/-- The `while ((d = getopt(...)) != EOF) switch (d)` loop: `none` when the `u`/`h`/`default`
case is reached (which calls `usage()` and returns), the final variables otherwise. -/
def getopt_loop : List Opt → Args → Option Args
  | [], a => some a
  | .f x :: rest, a => getopt_loop rest { a with frequency := x }
  | .b x :: rest, a => getopt_loop rest { a with bandwidth := x }
  | .M v :: rest, a => getopt_loop rest { a with M := intToUInt32 v }
  | .t x :: rest, a => getopt_loop rest { a with num_seconds := x }
  | .q :: rest, a => getopt_loop rest { a with verbose := false }
  | .v :: rest, a => getopt_loop rest { a with verbose := true }
  | .u :: _, _ => none
  | .h :: _, _ => none
  | .unknown :: _, _ => none

/-- The `if … else if …` range checks on `bandwidth`: the format string of the error written
to `stderr` before `exit(1)`, or `none` when both checks pass. -/
def validate (a : Args) : Option String :=
  if FloatVal.gt a.bandwidth max_bandwidth then
    some "error: %s, maximum symbol rate exceeded (%8.4f MHz)\n"
  else if FloatVal.lt a.bandwidth min_bandwidth then
    some "error: %s, minimum symbol rate exceeded (%8.4f kHz)\n"
  else none

/-- The variable `rx_buffer_length`. -/
def rx_buffer_length : ℕ := 512

/-- The variable `num_blocks`:
`(unsigned int)((2.0f*bandwidth*num_seconds)/(rx_buffer_length))`, every operation on `float`
operands. -/
def num_blocks (undef : FloatVal → ℕ) (bandwidth num_seconds : FloatVal) : ℕ :=
  FloatVal.toUInt32 undef
    (FloatVal.fdiv32 (FloatVal.fmul32 (FloatVal.fmul32 (.fin 2) bandwidth) num_seconds)
      (FloatVal.ofUInt32 rx_buffer_length))

/-- The argument of `set_rx_samplerate`: `2.0f*2.0f*bandwidth`. -/
def rx_samplerate (bandwidth : FloatVal) : FloatVal :=
  FloatVal.fmul32 (FloatVal.fmul32 (.fin 2) (.fin 2)) bandwidth

/-- The state that the receive loop threads: the calls made so far, the contents of the
array `data_rx` (`none` where no received sample is stored, in particular at every index
from `rx_buffer_length` on), and the number of `gport_consume` calls made so far. -/
structure State (α : Type) where
  trace : List (Event α)
  data_rx : ℕ → Option α
  consumed : ℕ

/-- The call `gport_consume(port_rx,(void*)data_rx,n)`: the port delivers the next `n`
samples of the received stream into `data_rx[0..n)`.  `rx c i` is sample `i` of the
`c`-th call. -/
def gport_consume {α : Type} (rx : ℕ → ℕ → α) (n : ℕ) (st : State α) : State α :=
  { trace := st.trace ++ [.gport_consume n]
    data_rx := fun i => if i < n then some (rx st.consumed i) else st.data_rx i
    consumed := st.consumed + 1 }

/-- The inner loop `for (i=0; i<rx_buffer_length; i+=2)`. -/
def decimate {α : Type} (st : State α) : State α :=
  forLoop
    (fun i (st : State α) =>
      { st with
        trace := st.trace ++
          [ .resamp2_crcf_decim_execute i (st.data_rx i) (st.data_rx (i + 1)),
            .ofdmframesync_execute 1 ] })
    rx_buffer_length 2 rx_buffer_length 0 st

/-- Everything `main` does once the range checks have passed.  The declaration
`unsigned int p[M]` takes `4 * M` bytes of stack, for an `M` that no check has bounded: when
they exceed the `stack` bytes available, the process is killed there, before
`ofdmframe_init_default_sctype` is entered. -/
def run {α : Type} (stack : ℕ) (undef : FloatVal → ℕ) (rx : ℕ → ℕ → α) (a : Args) :
    Outcome (Event α) :=
  let num_blocks := num_blocks undef a.bandwidth a.num_seconds
  let tr : List (Event α) :=
    [ .printf "frequency   :   %12.8f [MHz]\n",
      .printf "symbol rate :   %12.8f [kHz]\n",
      .printf "verbosity   :   %s\n",
      .new_usrp_io,
      .set_rx_freq USRP_CHANNEL a.frequency,
      .set_rx_samplerate (rx_samplerate a.bandwidth),
      .enable_auto_tx USRP_CHANNEL,
      .get_rx_port USRP_CHANNEL,
      .resamp2_crcf_create 41 (.fin 0) (.fin 40) ]
  if 4 * a.M ≤ stack then
    let tr := tr ++
      [ .ofdmframe_init_default_sctype a.M,
        .ofdmframesync_create a.M cp_len,
        .ofdmframesync_print,
        .start_rx USRP_CHANNEL ]
    let st : State α := { trace := tr, data_rx := fun _ => none, consumed := 0 }
    let st := gport_consume rx rx_buffer_length st
    let st := { st with trace := st.trace ++ [.printf "usrp data transfer started\n"] }
    let st := forLoop (fun _ st => decimate (gport_consume rx rx_buffer_length st))
      num_blocks 1 num_blocks 0 st
    { trace := st.trace ++
        [ .stop_rx USRP_CHANNEL,
          .printf "usrp data transfer complete\n",
          .resamp2_crcf_destroy,
          .ofdmframesync_destroy,
          .delete_usrp_io ]
      status := some 0 }
  else
    { trace := tr, status := none }

/-- The function `main`, on the option sequence that `getopt` yields: the calls made and the
exit status (`return 0`, or `exit(1)` after a failed range check). -/
def main {α : Type} (stack : ℕ) (undef : FloatVal → ℕ) (rx : ℕ → ℕ → α) (opts : List Opt) :
    Outcome (Event α) :=
  match getopt_loop opts defaults with
  | none => ⟨usage, some 0⟩
  | some a =>
      match validate a with
      | some msg => ⟨[.fprintf_stderr msg], some 1⟩
      | none => run stack undef rx a

/-- Whether a call goes to the USRP driver or the DSP library (everything but the output
calls `printf` and `fprintf`). -/
def Event.isExternal {α : Type} : Event α → Bool
  | .printf _ => false
  | .fprintf_stderr _ => false
  | _ => true

end ofdmframe_rx

/-! ## Reference statements

The definitions below are not taken from the programs.  They restate, as functions and
predicates, what the programs are expected to do, to be compared with the embedding. -/

/-- The C operator `<=` on floating values: false whenever an operand is NaN. -/
def FloatVal.le : FloatVal → FloatVal → Bool
  | .fin a, .fin b => decide (a ≤ b)
  | .fin _, .inf s => !s
  | .inf s, .fin _ => s
  | .inf s, .inf t => s || !t
  | _, _ => false

namespace tx_rrc

/-- The options on which the `switch` calls `usage()` and returns. -/
def Opt.isHelp : Opt → Bool
  | .u => true
  | .h => true
  | .unknown => true
  | _ => false

/-- The documented ranges of the parameters: `62500 <= symbol_rate <= 8000000`,
`1 <= m <= 20` and `0.0 <= beta <= 1.0`. -/
def in_range (a : Args) : Bool :=
  FloatVal.le (.fin 62500) a.symbol_rate && FloatVal.le a.symbol_rate (.fin 8000000)
    && decide (1 ≤ a.m) && decide (a.m ≤ 20)
    && FloatVal.le (.fin 0) a.beta && FloatVal.le a.beta (.fin 1)

/-- The value of `num_written_total` when the `n`-th `resamp_crcf_execute` call of a block is
made, after the calls before it stored the counts `nw 0, …, nw (n - 1)`. -/
def written (nw : ℕ → ℕ) : ℕ → ℕ
  | 0 => 0
  | n + 1 => (written nw n + nw n) % 4294967296

/-- The calls of one block iteration, loop by loop. -/
def block_calls (nw : ℕ → ℕ) : List Event :=
  (List.range 128).flatMap (fun n => [Event.modem_gen_rand_sym, Event.modem_modulate n])
    ++ (List.range 128).flatMap (fun n => [Event.interp_crcf_execute n (2 * n)])
    ++ (List.range 256).flatMap (fun n => [Event.resamp2_crcf_interp_execute n (2 * n)])
    ++ (List.range 512).flatMap (fun n => [Event.resamp_crcf_execute n (written nw n) (nw n)])
    ++ [Event.gport2_produce (written nw 512)]

/-- The arrays of `main` that the library calls of a block iteration read and write. -/
inductive Buf where
  | symbols
  | interp_out
  | data_tx
  | data_resamp
  deriving DecidableEq, Repr

/-- The declared number of elements of each array: `symbols[num_symbols]`,
`interp_out[2*num_symbols]`, `data_tx[512]`, `data_resamp[1024]`. -/
def Buf.size : Buf → ℕ
  | .symbols => num_symbols
  | .interp_out => 2 * num_symbols
  | .data_tx => 512
  | .data_resamp => 1024

/-- The array elements a library call touches.  `modem_modulate` writes one symbol;
`interp_crcf_execute` reads one symbol and writes `k = 2` samples; the half-band
interpolator reads one sample and writes two; `resamp_crcf_execute` reads one sample and
writes `num_written` samples; `gport2_produce` reads the `n` samples it sends. -/
def Event.accesses : Event → List (Buf × ℕ)
  | .modem_modulate y => [(.symbols, y)]
  | .interp_crcf_execute x y => [(.symbols, x), (.interp_out, y), (.interp_out, y + 1)]
  | .resamp2_crcf_interp_execute x y => [(.interp_out, x), (.data_tx, y), (.data_tx, y + 1)]
  | .resamp_crcf_execute x y num_written =>
      (.data_tx, x) :: (List.range num_written).map (fun j => (Buf.data_resamp, y + j))
  | .gport2_produce n => (List.range n).map (fun j => (Buf.data_resamp, j))
  | _ => []

end tx_rrc

namespace ofdmframe_rx

/-- The options on which the `switch` calls `usage()` and returns. -/
def Opt.isHelp : Opt → Bool
  | .u => true
  | .h => true
  | .unknown => true
  | _ => false

/-- The documented range of the bandwidth: `62500 <= bandwidth <= 8000000`. -/
def in_range (a : Args) : Bool :=
  FloatVal.le (.fin 62500) a.bandwidth && FloatVal.le a.bandwidth (.fin 8000000)

/-- The calls that move received samples: `start_rx`, `gport_consume` and `stop_rx`. -/
def Event.isStream {α : Type} : Event α → Bool
  | .start_rx _ => true
  | .gport_consume _ => true
  | .stop_rx _ => true
  | _ => false

/-- The calls that follow one `gport_consume` in the receive loop when the port has just
delivered the samples `blk 0, …, blk 511`: for each `j < 256` a decimator call on the pair at
`2j`, `2j + 1`, then a synchronizer call on one sample. -/
def decim_calls {α : Type} (blk : ℕ → α) : List (Event α) :=
  (List.range 256).flatMap (fun j =>
    [ Event.resamp2_crcf_decim_execute (2 * j) (some (blk (2 * j))) (some (blk (2 * j + 1))),
      Event.ofdmframesync_execute 1 ])

/-- The calls `main` makes before the first `gport_consume`. -/
def setup_calls {α : Type} (a : Args) : List (Event α) :=
  [ .printf "frequency   :   %12.8f [MHz]\n",
    .printf "symbol rate :   %12.8f [kHz]\n",
    .printf "verbosity   :   %s\n",
    .new_usrp_io,
    .set_rx_freq 0 a.frequency,
    .set_rx_samplerate (rx_samplerate a.bandwidth),
    .enable_auto_tx 0,
    .get_rx_port 0,
    .resamp2_crcf_create 41 (.fin 0) (.fin 40),
    .ofdmframe_init_default_sctype a.M,
    .ofdmframesync_create a.M 16,
    .ofdmframesync_print,
    .start_rx 0 ]

/-- The calls `main` makes before the declaration of the array `p`. -/
def config_calls {α : Type} (a : Args) : List (Event α) :=
  [ .printf "frequency   :   %12.8f [MHz]\n",
    .printf "symbol rate :   %12.8f [kHz]\n",
    .printf "verbosity   :   %s\n",
    .new_usrp_io,
    .set_rx_freq 0 a.frequency,
    .set_rx_samplerate (rx_samplerate a.bandwidth),
    .enable_auto_tx 0,
    .get_rx_port 0,
    .resamp2_crcf_create 41 (.fin 0) (.fin 40) ]

/-- The calls `main` makes after the receive loop. -/
def teardown_calls {α : Type} : List (Event α) :=
  [ .stop_rx 0,
    .printf "usrp data transfer complete\n",
    .resamp2_crcf_destroy,
    .ofdmframesync_destroy,
    .delete_usrp_io ]

/-- The number of samples handed to the synchronizer by the calls of a trace. -/
def sync_samples {α : Type} : List (Event α) → ℕ
  | [] => 0
  | .ofdmframesync_execute n :: rest => n + sync_samples rest
  | _ :: rest => sync_samples rest

end ofdmframe_rx

/-- The finite binary32 values: `m * 2 ^ k` with a significand `m` of at most 24 bits and an
exponent `k` from `-149` to `104`. -/
def FloatVal.isBinary32 (q : ℚ) : Prop :=
  ∃ m k : ℤ, |m| < 2 ^ 24 ∧ -149 ≤ k ∧ k ≤ 104 ∧ q = m * 2 ^ k

/-! ## Loops -/

/-- A unit-step loop whose fuel covers the remaining iterations runs its body once for each
counter value from `i` up to `bound`, in order, and stops by its own condition. -/
theorem forLoop_step_one {σ : Type} (body : ℕ → σ → σ) (bound : ℕ) (hb : bound < 4294967296) :
    ∀ (fuel i : ℕ) (s : σ), bound - i ≤ fuel →
      forLoop body bound 1 fuel i s
        = (List.range' i (bound - i)).foldl (fun s n => body n s) s := by
  intro fuel
  induction fuel with
  | zero =>
    intro i s h
    have h0 : bound - i = 0 := by omega
    simp [forLoop, h0]
  | succ fuel ih =>
    intro i s h
    unfold forLoop
    by_cases hi : i < bound
    · have hmod : (i + 1) % 4294967296 = i + 1 := Nat.mod_eq_of_lt (by omega)
      have hcnt : bound - i = (bound - (i + 1)) + 1 := by omega
      rw [if_pos hi, hmod, ih (i + 1) (body i s) (by omega), hcnt, List.range'_succ]
      simp
    · have h0 : bound - i = 0 := by omega
      simp [hi, h0]

/-- The loop `for (n = 0; n < bound; n++)`, given `bound` iterations of fuel. -/
theorem forLoop_range {σ : Type} (body : ℕ → σ → σ) (bound : ℕ) (hb : bound < 4294967296)
    (s : σ) :
    forLoop body bound 1 bound 0 s = (List.range bound).foldl (fun s n => body n s) s := by
  rw [forLoop_step_one body bound hb bound 0 s (by omega), List.range_eq_range']
  simp

/-- A loop whose body only appends calls to the trace appends the calls of each iteration,
in order. -/
theorem foldl_append_trace {ε : Type} (f : ℕ → List ε) (l : List ℕ) (tr : List ε) :
    l.foldl (fun tr n => tr ++ f n) tr = tr ++ l.flatMap f := by
  induction l generalizing tr with
  | nil => simp
  | cons a l ih => simp [List.foldl_cons, ih, List.flatMap_cons, List.append_assoc]

/-- A step-two loop whose fuel covers the remaining iterations runs its body once for each
counter value `i, i + 2, …` below `bound`, in order. -/
theorem forLoop_step_two {σ : Type} (body : ℕ → σ → σ) (bound : ℕ)
    (hb : bound + 1 < 4294967296) :
    ∀ (fuel i : ℕ) (s : σ), (bound - i + 1) / 2 ≤ fuel →
      forLoop body bound 2 fuel i s
        = ((List.range ((bound - i + 1) / 2)).map (fun j => i + 2 * j)).foldl
            (fun s n => body n s) s := by
  intro fuel
  induction fuel with
  | zero =>
    intro i s h
    have h0 : (bound - i + 1) / 2 = 0 := by omega
    simp [forLoop, h0]
  | succ fuel ih =>
    intro i s h
    unfold forLoop
    by_cases hi : i < bound
    · have hmod : (i + 2) % 4294967296 = i + 2 := Nat.mod_eq_of_lt (by omega)
      have hcnt : (bound - i + 1) / 2 = (bound - (i + 2) + 1) / 2 + 1 := by omega
      rw [if_pos hi, hmod, ih (i + 2) (body i s) (by omega), hcnt, List.range_succ_eq_map]
      simp only [List.map_cons, List.map_map, List.foldl_cons, Nat.mul_zero, Nat.add_zero]
      congr 2
      funext j
      simp only [Function.comp, Nat.succ_eq_add_one]
      omega
    · have h0 : (bound - i + 1) / 2 = 0 := by omega
      simp [hi, h0]

/-! ## Conversions -/

/-- The result of `(unsigned int)x` fits in 32 bits, whatever the platform does with an
operand out of range. -/
theorem FloatVal.toUInt32_lt (undef : FloatVal → ℕ) (x : FloatVal) :
    FloatVal.toUInt32 undef x < 4294967296 := by
  cases x with
  | fin q =>
    simp only [FloatVal.toUInt32]
    split_ifs with h
    · omega
    · exact Nat.mod_lt _ (by norm_num)
  | inf s => exact Nat.mod_lt _ (by norm_num)
  | nan => exact Nat.mod_lt _ (by norm_num)

/-- On a finite operand in `[0, 2 ^ 32)` the conversion is the floor. -/
theorem FloatVal.toUInt32_fin (undef : FloatVal → ℕ) (q : ℚ) (h0 : 0 ≤ q)
    (h1 : q < 4294967296) :
    FloatVal.toUInt32 undef (.fin q) = ⌊q⌋₊ := by
  have hf : 0 ≤ ⌊q⌋ := Int.floor_nonneg.mpr h0
  have hlt : ⌊q⌋ < 4294967296 := Int.floor_lt.mpr (by exact_mod_cast h1)
  simp only [FloatVal.toUInt32, FloatVal.trunc, h0, if_true, hf, hlt, and_self]
  exact Int.floor_toNat q

/-- On 32-bit values, `(x >> 2) << 2` clears the two low bits. -/
theorem shift_clears_low_bits (x : ℕ) (hx : x < 4294967296) :
    ((x >>> 2) <<< 2) % 4294967296 = x - x % 4 := by
  rw [Nat.shiftRight_eq_div_pow, Nat.shiftLeft_eq]
  omega

/-! ## Rounding to binary32 -/

namespace FloatVal

/-- Rounding to the nearest integer moves a value by at most one half. -/
theorem roundNE_sub_le (x : ℚ) : |(roundNE x : ℚ) - x| ≤ 1 / 2 := by
  have h1 : (⌊x⌋ : ℚ) ≤ x := Int.floor_le x
  have h2 : x < ⌊x⌋ + 1 := Int.lt_floor_add_one x
  unfold roundNE
  split_ifs with c1 c2 c3
  · rw [abs_le]; constructor <;> linarith
  · push_cast; rw [abs_le]; constructor <;> linarith
  · rw [abs_le]; constructor <;> linarith
  · push_cast; rw [abs_le]; constructor <;> linarith

/-- A value closer than one half to an integer rounds to that integer. -/
theorem roundNE_eq_of_abs_lt (x : ℚ) (n : ℤ) (h : |x - n| < 1 / 2) : roundNE x = n := by
  have hr := roundNE_sub_le x
  rw [abs_lt] at h
  rw [abs_le] at hr
  have h3 : ((roundNE x - n : ℤ) : ℚ) < 1 := by push_cast; linarith [h.1, h.2, hr.1, hr.2]
  have h4 : (-1 : ℚ) < ((roundNE x - n : ℤ) : ℚ) := by push_cast; linarith [h.1, h.2, hr.1, hr.2]
  have h5 : roundNE x - n < 1 := by exact_mod_cast h3
  have h6 : -1 < roundNE x - n := by exact_mod_cast h4
  omega

/-- An integer rounds to itself. -/
theorem roundNE_intCast (n : ℤ) : roundNE (n : ℚ) = n :=
  roundNE_eq_of_abs_lt _ n (by simp)

/-- A non-negative value rounds to a non-negative integer. -/
theorem roundNE_nonneg (x : ℚ) (h : 0 ≤ x) : 0 ≤ roundNE x := by
  have hf : 0 ≤ ⌊x⌋ := Int.floor_nonneg.mpr h
  unfold roundNE
  split_ifs <;> omega

/-- Rounding does not cross an integer above the value. -/
theorem roundNE_le (x : ℚ) (n : ℤ) (h : x ≤ n) : roundNE x ≤ n := by
  rcases eq_or_lt_of_le h with h | h
  · rw [h, roundNE_intCast]
  · have hf : ⌊x⌋ < n := Int.floor_lt.mpr h
    unfold roundNE
    split_ifs <;> omega

/-- The leading bit of a positive value, and the exponent of its unit in the last place. -/
theorem ulpExp_spec (q : ℚ) (hq : 0 < q) :
    (2 : ℚ) ^ (Int.log 2 q) ≤ q ∧ q < (2 : ℚ) ^ (Int.log 2 q + 1)
      ∧ ulpExp q = max (Int.log 2 q - 23) (-149) := by
  refine ⟨?_, ?_, ?_⟩
  · exact_mod_cast Int.zpow_log_le_self (b := 2) (by norm_num) hq
  · exact_mod_cast Int.lt_zpow_succ_log_self (b := 2) (by norm_num) q
  · simp [ulpExp, abs_of_pos hq]

/-- The binary logarithm of a value between two consecutive powers of two. -/
theorem log_eq_of_bounds (q : ℚ) (L : ℤ) (h1 : (2 : ℚ) ^ L ≤ q) (h2 : q < (2 : ℚ) ^ (L + 1)) :
    Int.log 2 q = L := by
  have hq : 0 < q := lt_of_lt_of_le (by positivity) h1
  have a : L ≤ Int.log 2 q := (Int.zpow_le_iff_le_log (b := 2) (by norm_num) hq).mp (by exact_mod_cast h1)
  have b : Int.log 2 q < L + 1 := (Int.lt_zpow_iff_log_lt (b := 2) (by norm_num) hq).mp (by exact_mod_cast h2)
  omega

/-- Powers of two are positive. -/
theorem two_zpow_pos (k : ℤ) : (0 : ℚ) < (2 : ℚ) ^ k := by positivity

/-- Rounding of a positive value to binary32: the significand is an integer between 0 and
`2 ^ 24`, the result is within half a unit in the last place, and it is finite unless it
reaches `2 ^ 128`. -/
theorem round32_pos (q : ℚ) (hq : 0 < q) :
    0 ≤ roundNE (q / 2 ^ ulpExp q) ∧ roundNE (q / 2 ^ ulpExp q) ≤ 2 ^ 24
      ∧ |(roundNE (q / 2 ^ ulpExp q) : ℚ) * 2 ^ ulpExp q - q| ≤ 2 ^ ulpExp q / 2
      ∧ ((roundNE (q / 2 ^ ulpExp q) : ℚ) * 2 ^ ulpExp q < 2 ^ (128 : ℤ) →
          round32 q = fin (roundNE (q / 2 ^ ulpExp q) * 2 ^ ulpExp q)) := by
  obtain ⟨_, hup, he⟩ := ulpExp_spec q hq
  have hpe := two_zpow_pos (ulpExp q)
  have hx0 : 0 ≤ q / 2 ^ ulpExp q := by positivity
  have hM0 := roundNE_nonneg _ hx0
  have hle : Int.log 2 q + 1 ≤ ulpExp q + 24 := by
    rw [he]
    have := le_max_left (Int.log 2 q - 23) (-149)
    omega
  have hq24 : q < 2 ^ ulpExp q * 2 ^ (24 : ℤ) := by
    rw [← zpow_add₀ (two_ne_zero)]
    exact lt_of_lt_of_le hup (zpow_le_zpow_right₀ (by norm_num) hle)
  have hx24 : q / 2 ^ ulpExp q ≤ ((2 ^ 24 : ℤ) : ℚ) := by
    rw [div_le_iff₀ hpe]
    push_cast
    have : (2 : ℚ) ^ (24 : ℤ) = 2 ^ 24 := by norm_num
    rw [this] at hq24
    linarith
  have hM24 := roundNE_le _ _ hx24
  have herr := roundNE_sub_le (q / 2 ^ ulpExp q)
  refine ⟨hM0, hM24, ?_, ?_⟩
  · have e1 : (roundNE (q / 2 ^ ulpExp q) : ℚ) * 2 ^ ulpExp q - q
        = ((roundNE (q / 2 ^ ulpExp q) : ℚ) - q / 2 ^ ulpExp q) * 2 ^ ulpExp q := by
      field_simp
    rw [e1, abs_mul, abs_of_pos hpe]
    calc |(roundNE (q / 2 ^ ulpExp q) : ℚ) - q / 2 ^ ulpExp q| * 2 ^ ulpExp q
        ≤ 1 / 2 * 2 ^ ulpExp q := mul_le_mul_of_nonneg_right herr hpe.le
      _ = 2 ^ ulpExp q / 2 := by ring
  · intro hlt
    have hy0 : (0 : ℚ) ≤ (roundNE (q / 2 ^ ulpExp q) : ℚ) * 2 ^ ulpExp q :=
      mul_nonneg (by exact_mod_cast hM0) hpe.le
    simp only [round32, hq.ne', if_false, abs_of_nonneg hy0, not_le.mpr hlt]

/-- A value `m * 2 ^ k` with at most 24 significant bits and `k` in the exponent range is
not changed by rounding. -/
theorem round32_exact (m k : ℤ) (hm0 : 0 < m) (hm : m ≤ 2 ^ 24) (hk : -149 ≤ k)
    (hlt : (m : ℚ) * 2 ^ k < 2 ^ (128 : ℤ)) :
    round32 ((m : ℚ) * 2 ^ k) = fin ((m : ℚ) * 2 ^ k) := by
  have hpk := two_zpow_pos k
  have hmq : (0 : ℚ) < m := by exact_mod_cast hm0
  have hq : (0 : ℚ) < (m : ℚ) * 2 ^ k := mul_pos hmq hpk
  obtain ⟨hlo, _, he⟩ := ulpExp_spec _ hq
  have hpe := two_zpow_pos (ulpExp ((m : ℚ) * 2 ^ k))
  have hm24 : (m : ℚ) ≤ 2 ^ (24 : ℤ) := by
    have h1 : (m : ℚ) ≤ ((2 ^ 24 : ℤ) : ℚ) := by exact_mod_cast hm
    have h2 : (2 : ℚ) ^ (24 : ℤ) = ((2 ^ 24 : ℤ) : ℚ) := by norm_num
    rw [h2]
    exact h1
  -- the quotient by the unit in the last place is an integer
  have hint : ∃ N : ℤ, (m : ℚ) * 2 ^ k / 2 ^ ulpExp ((m : ℚ) * 2 ^ k) = N := by
    by_cases hek : ulpExp ((m : ℚ) * 2 ^ k) ≤ k
    · refine ⟨m * 2 ^ (k - ulpExp ((m : ℚ) * 2 ^ k)).toNat, ?_⟩
      have hd : ((k - ulpExp ((m : ℚ) * 2 ^ k)).toNat : ℤ) = k - ulpExp ((m : ℚ) * 2 ^ k) :=
        Int.toNat_of_nonneg (by omega)
      push_cast
      rw [← zpow_natCast, hd, zpow_sub₀ (two_ne_zero)]
      field_simp
    · -- then `m = 2 ^ 24` and the unit is `2 ^ (k + 1)`
      have hL : k + 24 ≤ Int.log 2 ((m : ℚ) * 2 ^ k) := by
        rw [he] at hek
        rcases le_max_iff.mp (le_refl (max (Int.log 2 ((m : ℚ) * 2 ^ k) - 23) (-149))) with h | h
        · omega
        · omega
      have hge : (2 : ℚ) ^ (k + 24) ≤ (m : ℚ) * 2 ^ k :=
        le_trans (zpow_le_zpow_right₀ (by norm_num) hL) hlo
      rw [zpow_add₀ (two_ne_zero), mul_comm] at hge
      have hm' : (2 : ℚ) ^ (24 : ℤ) ≤ m := le_of_mul_le_mul_right hge hpk
      have hmeq : (m : ℚ) = 2 ^ (24 : ℤ) := le_antisymm hm24 hm'
      have hLeq : Int.log 2 ((m : ℚ) * 2 ^ k) = k + 24 := by
        rw [hmeq, ← zpow_add₀ (two_ne_zero), add_comm]
        exact_mod_cast Int.log_zpow (R := ℚ) (b := 2) (by norm_num) (k + 24)
      have heq : ulpExp ((m : ℚ) * 2 ^ k) = k + 1 := by
        rw [he, hLeq]
        rw [max_eq_left (by omega)]
        omega
      refine ⟨2 ^ 23, ?_⟩
      rw [heq, hmeq, zpow_add₀ (two_ne_zero)]
      field_simp
      norm_num
      ring
  obtain ⟨N, hN⟩ := hint
  have hr : roundNE ((m : ℚ) * 2 ^ k / 2 ^ ulpExp ((m : ℚ) * 2 ^ k)) = N := by
    rw [hN]
    exact roundNE_intCast N
  have hy : (roundNE ((m : ℚ) * 2 ^ k / 2 ^ ulpExp ((m : ℚ) * 2 ^ k)) : ℚ)
      * 2 ^ ulpExp ((m : ℚ) * 2 ^ k) = (m : ℚ) * 2 ^ k := by
    rw [hr, ← hN]
    field_simp
  have h := (round32_pos _ hq).2.2.2
  rw [hy] at h
  exact h hlt

end FloatVal

namespace FloatVal

/-- Evaluation of a rounding in the normal range: a value with leading bit `2 ^ L` whose
quotient by the unit `2 ^ (L - 23)` is closer than one half to the integer `n` rounds to
`n * 2 ^ (L - 23)`. -/
theorem round32_eval (q : ℚ) (L n : ℤ) (h1 : (2 : ℚ) ^ L ≤ q) (h2 : q < (2 : ℚ) ^ (L + 1))
    (hL : -126 ≤ L) (hn : |q / 2 ^ (L - 23) - n| < 1 / 2)
    (hlt : (n : ℚ) * 2 ^ (L - 23) < 2 ^ (128 : ℤ)) :
    round32 q = fin ((n : ℚ) * 2 ^ (L - 23)) := by
  have hq : 0 < q := lt_of_lt_of_le (two_zpow_pos L) h1
  have hlog := log_eq_of_bounds q L h1 h2
  have he : ulpExp q = L - 23 := by
    rw [(ulpExp_spec q hq).2.2, hlog]
    exact max_eq_left (by omega)
  have h := (round32_pos q hq).2.2.2
  rw [he, roundNE_eq_of_abs_lt _ n hn] at h
  exact h hlt

/-- A value of at most 24 bits is a binary32 value. -/
theorem round32_natCast (n : ℕ) (hn : n ≤ 2 ^ 24) : round32 (n : ℚ) = fin n := by
  rcases Nat.eq_zero_or_pos n with h0 | h0
  · subst h0
    simp [round32]
  · have h := round32_exact (n : ℤ) 0 (by exact_mod_cast h0) (by exact_mod_cast hn)
      (by norm_num)
      (by
        have : ((n : ℤ) : ℚ) ≤ 2 ^ 24 := by exact_mod_cast hn
        simp only [zpow_zero, mul_one]
        exact lt_of_le_of_lt this (by norm_num))
    simpa using h

/-- A positive binary32 value stays a binary32 value when it is doubled once or twice. -/
theorem round32_scale (s : ℚ) (j : ℕ) (hs : isBinary32 s) (h0 : 0 < s)
    (hlt : (2 : ℚ) ^ j * s < 2 ^ (128 : ℤ)) :
    round32 ((2 : ℚ) ^ j * s) = fin ((2 : ℚ) ^ j * s) := by
  obtain ⟨m, k, hm, hk, _, rfl⟩ := hs
  have hpk := two_zpow_pos k
  have hm0 : 0 < m := by
    have : (0 : ℚ) < (m : ℚ) := pos_of_mul_pos_left h0 hpk.le
    exact_mod_cast this
  have hm24 : m ≤ 2 ^ 24 := by
    have := abs_lt.mp hm
    omega
  have e : (2 : ℚ) ^ j * ((m : ℚ) * 2 ^ k) = (m : ℚ) * 2 ^ (k + j) := by
    rw [zpow_add₀ (two_ne_zero), zpow_natCast]
    ring
  rw [e] at hlt ⊢
  exact round32_exact m (k + j) hm0 hm24 (by omega) hlt

/-- Rounding of a small positive value: below `2 ^ j` with `-125 <= j <= 0`, the result is
finite, non-negative and at most `2 ^ j`. -/
theorem round32_small (x : ℚ) (j : ℤ) (hx : 0 < x) (hxj : x < (2 : ℚ) ^ j) (hj : -125 ≤ j)
    (hj0 : j ≤ 0) :
    ∃ y : ℚ, round32 x = fin y ∧ 0 ≤ y ∧ y ≤ (2 : ℚ) ^ j := by
  obtain ⟨hM0, hM24, _, hfin⟩ := round32_pos x hx
  have hpe := two_zpow_pos (ulpExp x)
  have hlog : Int.log 2 x < j :=
    (Int.lt_zpow_iff_log_lt (b := 2) (by norm_num) hx).mp (by exact_mod_cast hxj)
  have he : ulpExp x ≤ j - 24 := by
    rw [(ulpExp_spec x hx).2.2]
    exact max_le (by omega) (by omega)
  have hMq : (roundNE (x / 2 ^ ulpExp x) : ℚ) ≤ 2 ^ (24 : ℤ) := by
    have h1 : (roundNE (x / 2 ^ ulpExp x) : ℚ) ≤ ((2 ^ 24 : ℤ) : ℚ) := by exact_mod_cast hM24
    have h2 : (2 : ℚ) ^ (24 : ℤ) = ((2 ^ 24 : ℤ) : ℚ) := by norm_num
    rw [h2]
    exact h1
  have hy : (roundNE (x / 2 ^ ulpExp x) : ℚ) * 2 ^ ulpExp x ≤ (2 : ℚ) ^ j := by
    calc (roundNE (x / 2 ^ ulpExp x) : ℚ) * 2 ^ ulpExp x
        ≤ 2 ^ (24 : ℤ) * 2 ^ (j - 24) :=
          mul_le_mul hMq (zpow_le_zpow_right₀ (by norm_num) he) hpe.le (by positivity)
      _ = (2 : ℚ) ^ j := by
          rw [← zpow_add₀ (two_ne_zero)]
          congr 1
          omega
  have hj1 : (2 : ℚ) ^ j ≤ 1 := by
    have := zpow_le_zpow_right₀ (a := (2 : ℚ)) (by norm_num) hj0
    simpa using this
  refine ⟨_, hfin (lt_of_le_of_lt (le_trans hy hj1) (by norm_num)), ?_, hy⟩
  exact mul_nonneg (by exact_mod_cast hM0) hpe.le

/-- Rounding of a value of at least 1: the result is `M * 2 ^ e` with a positive significand of
at most 24 bits, `e >= -23`, and a relative error of at most `2 ^ -24`. -/
theorem round32_normal (p : ℚ) (hp : 1 ≤ p) (hlt : p * (1 + 1 / 2 ^ 24) < 2 ^ (128 : ℤ)) :
    ∃ M e : ℤ, round32 p = fin ((M : ℚ) * 2 ^ e) ∧ 0 < M ∧ M ≤ 2 ^ 24 ∧ -23 ≤ e
      ∧ |(M : ℚ) * 2 ^ e - p| ≤ p / 2 ^ 24 := by
  have hp0 : 0 < p := by linarith
  obtain ⟨hM0, hM24, herr, hfin⟩ := round32_pos p hp0
  obtain ⟨hlo, _, he⟩ := ulpExp_spec p hp0
  have hL : 0 ≤ Int.log 2 p :=
    (Int.zpow_le_iff_le_log (b := 2) (by norm_num) hp0).mp (by simpa using hp)
  have he' : ulpExp p = Int.log 2 p - 23 := by
    rw [he]
    exact max_eq_left (by omega)
  have hulp : (2 : ℚ) ^ ulpExp p / 2 ≤ p / 2 ^ 24 := by
    rw [he', zpow_sub₀ (two_ne_zero)]
    have h23 : (2 : ℚ) ^ (23 : ℤ) = 2 ^ 23 := by norm_num
    rw [h23]
    have : (2 : ℚ) ^ Int.log 2 p / 2 ^ 23 / 2 = 2 ^ Int.log 2 p / 2 ^ 24 := by ring
    rw [this]
    exact div_le_div_of_nonneg_right hlo (by positivity)
  have herr' : |(roundNE (p / 2 ^ ulpExp p) : ℚ) * 2 ^ ulpExp p - p| ≤ p / 2 ^ 24 :=
    le_trans herr hulp
  have hb := abs_le.mp herr'
  have hpos : (0 : ℚ) < (roundNE (p / 2 ^ ulpExp p) : ℚ) * 2 ^ ulpExp p := by
    have : p / 2 ^ 24 < p := by
      rw [div_lt_iff₀ (by positivity)]
      nlinarith
    linarith [hb.1]
  have hMpos : 0 < roundNE (p / 2 ^ ulpExp p) := by
    have : (0 : ℚ) < (roundNE (p / 2 ^ ulpExp p) : ℚ) :=
      pos_of_mul_pos_left hpos (two_zpow_pos _).le
    exact_mod_cast this
  refine ⟨roundNE (p / 2 ^ ulpExp p), ulpExp p, hfin ?_, hMpos, hM24, by omega, herr'⟩
  have : p + p / 2 ^ 24 = p * (1 + 1 / 2 ^ 24) := by ring
  linarith [hb.2]

end FloatVal

namespace FloatVal

/-- The quotient of a finite value by 512, as the `float` division computes it. -/
theorem fdiv32_512 (P : ℚ) : fdiv32 (fin P) (fin 512) = round32 (P / 512) := by
  simp [fdiv32, div]

/-- The block count `(unsigned int)(fl(p) / 512)` of a product with exact value `p >= 0`: the
product rounds to a finite `P`, the count is `floor(P / 512)` whenever `p * (1 + 2 ^ -24)` is
below `512 * 2 ^ 32`, and `512` times the count is `p` up to one block and the relative
rounding error `2 ^ -24`. -/
theorem block_count (undef : FloatVal → ℕ) (p : ℚ) (hp : 0 ≤ p)
    (hfit : p * (1 + 1 / 2 ^ 24) < 2199023255552) :
    ∃ P : ℚ, round32 p = fin P
      ∧ toUInt32 undef (fdiv32 (fin P) (fin 512)) = ⌊P / 512⌋₊
      ∧ 512 * (⌊P / 512⌋₊ : ℚ) ≤ p * (1 + 1 / 2 ^ 24)
      ∧ p * (1 - 1 / 2 ^ 24) < 512 * ((⌊P / 512⌋₊ : ℚ) + 1) := by
  have hzero : ∀ P : ℚ, P = 0 →
      toUInt32 undef (fdiv32 (fin P) (fin 512)) = ⌊P / 512⌋₊ ∧ ⌊P / 512⌋₊ = 0 := by
    intro P hP
    subst hP
    have h0 : round32 ((0 : ℚ) / 512) = fin 0 := by simp [round32]
    rw [fdiv32_512, h0, toUInt32_fin undef 0 (le_refl _) (by norm_num)]
    simp
  rcases eq_or_lt_of_le hp with hp0 | hp0
  · -- p = 0
    subst hp0
    refine ⟨0, by simp [round32], (hzero 0 rfl).1, ?_, ?_⟩
    · rw [(hzero 0 rfl).2]
      norm_num
    · rw [(hzero 0 rfl).2]
      norm_num
  · by_cases h1 : p < 1
    · -- 0 < p < 1: the count is 0
      obtain ⟨y, hy, hy0, hy1⟩ := round32_small p 0 hp0 (by simpa using h1) (by norm_num)
        (le_refl _)
      have hy1' : y ≤ 1 := by simpa using hy1
      have hcount : toUInt32 undef (fdiv32 (fin y) (fin 512)) = ⌊y / 512⌋₊
          ∧ ⌊y / 512⌋₊ = 0 := by
        rcases eq_or_lt_of_le hy0 with hy00 | hy00
        · exact hzero y hy00.symm
        · have hx : 0 < y / 512 := by positivity
          have hx8 : y / 512 < (2 : ℚ) ^ (-8 : ℤ) := by
            rw [div_lt_iff₀ (by norm_num)]
            have : (2 : ℚ) ^ (-8 : ℤ) * 512 = 2 := by norm_num
            rw [this]
            linarith
          obtain ⟨z, hz, hz0, hz1⟩ := round32_small (y / 512) (-8) hx hx8 (by norm_num)
            (by norm_num)
          have hz1' : z < 1 := lt_of_le_of_lt hz1 (by norm_num)
          have hfl : ⌊y / 512⌋₊ = 0 := by
            rw [Nat.floor_eq_zero]
            exact lt_trans hx8 (by norm_num)
          rw [fdiv32_512, hz, toUInt32_fin undef z hz0 (by linarith), hfl]
          exact ⟨Nat.floor_eq_zero.mpr hz1', rfl⟩
      refine ⟨y, hy, hcount.1, ?_, ?_⟩
      · rw [hcount.2]
        have : 0 ≤ p * (1 + 1 / 2 ^ 24) := by positivity
        simpa using this
      · rw [hcount.2]
        have : p * (1 - 1 / 2 ^ 24) ≤ p := by nlinarith
        norm_num
        linarith
    · -- 1 <= p: the division by 512 is exact
      have h1' : 1 ≤ p := not_lt.mp h1
      obtain ⟨M, e, hr, hM0, hM24, he, herr⟩ := round32_normal p h1'
        (lt_trans hfit (by norm_num))
      have hb := abs_le.mp herr
      have hup : (M : ℚ) * 2 ^ e < 2199023255552 := by
        have : p + p / 2 ^ 24 = p * (1 + 1 / 2 ^ 24) := by ring
        linarith [hb.2]
      have hPpos : (0 : ℚ) < (M : ℚ) * 2 ^ e :=
        mul_pos (by exact_mod_cast hM0) (two_zpow_pos e)
      have hdiv : (M : ℚ) * 2 ^ e / 512 = (M : ℚ) * 2 ^ (e - 9) := by
        rw [zpow_sub₀ (two_ne_zero)]
        norm_num
        ring
      have hq0 : (0 : ℚ) ≤ (M : ℚ) * 2 ^ e / 512 := by positivity
      have hq32 : (M : ℚ) * 2 ^ e / 512 < 4294967296 := by
        rw [div_lt_iff₀ (by norm_num)]
        linarith
      have hex : round32 ((M : ℚ) * 2 ^ e / 512) = fin ((M : ℚ) * 2 ^ e / 512) := by
        rw [hdiv]
        refine round32_exact M (e - 9) hM0 hM24 (by omega) ?_
        rw [← hdiv]
        exact lt_trans hq32 (by norm_num)
      refine ⟨(M : ℚ) * 2 ^ e, hr, ?_, ?_, ?_⟩
      · rw [fdiv32_512, hex, toUInt32_fin undef _ hq0 hq32]
      · have hfl := Nat.floor_le hq0
        have : p + p / 2 ^ 24 = p * (1 + 1 / 2 ^ 24) := by ring
        linarith [hb.2]
      · have hfl := Nat.lt_floor_add_one ((M : ℚ) * 2 ^ e / 512)
        have : p - p / 2 ^ 24 = p * (1 - 1 / 2 ^ 24) := by ring
        linarith [hb.1]

end FloatVal

/-! ## `tx_rrc`: the calls of a run -/

namespace tx_rrc

/-- The resampler loop leaves `num_written_total` at `written nw n` after `n` calls and
appends one `resamp_crcf_execute` call per input sample. -/
theorem resamp_loop (nw : ℕ → ℕ) (tr : List Event) (n : ℕ) :
    (List.range n).foldl
        (fun (st : List Event × ℕ) n =>
          (st.1 ++ [Event.resamp_crcf_execute n st.2 (nw n)], (st.2 + nw n) % 4294967296))
        (tr, 0)
      = (tr ++ (List.range n).flatMap
            (fun n => [Event.resamp_crcf_execute n (written nw n) (nw n)]),
          written nw n) := by
  induction n with
  | zero => simp [written]
  | succ n ih =>
    rw [List.range_succ, List.foldl_append, ih]
    simp [written, List.flatMap_append]

/-- One block iteration appends exactly `block_calls nw` to the trace. -/
theorem tx_block_eq (nw : ℕ → ℕ) (tr : List Event) : block nw tr = tr ++ block_calls nw := by
  unfold block
  simp only [num_symbols]
  rw [forLoop_range _ 128 (by norm_num), forLoop_range _ 128 (by norm_num),
    forLoop_range _ (2 * 128) (by norm_num), forLoop_range _ (4 * 128) (by norm_num)]
  rw [foldl_append_trace (fun n => [Event.modem_gen_rand_sym, Event.modem_modulate n]),
    foldl_append_trace (fun n => [Event.interp_crcf_execute n (2 * n)]),
    foldl_append_trace (fun n => [Event.resamp2_crcf_interp_execute n (2 * n)]),
    resamp_loop]
  simp [block_calls, List.append_assoc]

/-- The calls `main` makes before the block loop. -/
theorem tx_run_eq (undef : FloatVal → ℕ) (nw : ℕ → ℕ → ℕ) (a : Args) (ir : ℕ) :
    run undef nw a ir =
      [ Event.printf "frequency   :   %12.8f [MHz]\n",
        Event.printf "symbol_rate :   %12.8f [kHz] (usrp : %12.8f [kHz])\n",
        Event.printf "verbosity   :   %s\n",
        Event.printf "resampling rate : %12.8f\n",
        Event.new_usrp_io,
        Event.set_tx_freq 0 a.frequency,
        Event.set_tx_interp ir,
        Event.enable_auto_tx 0,
        Event.get_tx_port 0,
        Event.design_rrc_filter k a.m a.beta (.fin 0) (h_len a.m),
        Event.interp_crcf_create k (h_len a.m),
        Event.resamp2_crcf_create 37 (.fin 0) (.fin 60),
        Event.resamp_crcf_create (r ir a.symbol_rate) 13 (.fin (1 / 2)) (.fin 60) 32,
        Event.modem_create 2,
        Event.start_tx 0 ]
      ++ (List.range (num_blocks undef a.symbol_rate a.num_seconds)).flatMap
            (fun i => block_calls (nw i))
      ++ [ Event.stop_tx 0,
           Event.printf "usrp data transfer complete\n",
           Event.resamp2_crcf_destroy,
           Event.resamp_crcf_destroy,
           Event.interp_crcf_destroy,
           Event.modem_destroy,
           Event.delete_usrp_io ] := by
  unfold run
  simp only []
  have hnb : num_blocks undef a.symbol_rate a.num_seconds < 4294967296 :=
    FloatVal.toUInt32_lt undef _
  rw [forLoop_range _ _ hnb]
  have hb : (fun (tr : List Event) (i : ℕ) => block (nw i) tr)
      = (fun tr i => tr ++ block_calls (nw i)) := by
    funext tr i
    exact tx_block_eq (nw i) tr
  rw [hb, foldl_append_trace (fun i => block_calls (nw i))]

end tx_rrc

/-! ## `tx_rrc`: argument validation -/

namespace tx_rrc

/-- The lower limit is 62.5 kHz and the upper limit 8 MHz. -/
theorem tx_limits_eq :
    min_symbol_rate = .fin 62500 ∧ max_symbol_rate = .fin 8000000 := by
  constructor
  · show FloatVal.fin (32000000 / 512) = FloatVal.fin 62500
    norm_num
  · show FloatVal.fin (32000000 / 4) = FloatVal.fin 8000000
    norm_num

/-- For parameters none of which is NaN, the range checks pass exactly when the parameters
lie in the documented ranges, bounds included. -/
theorem tx_validate_eq_none_iff (a : Args) (hs : a.symbol_rate ≠ .nan) (hb : a.beta ≠ .nan) :
    validate a = none ↔ in_range a = true := by
  obtain ⟨verbose, frequency, symbol_rate, num_seconds, m, beta⟩ := a
  simp only [validate, in_range, tx_limits_eq.1, tx_limits_eq.2, FloatVal.gt] at *
  cases symbol_rate with
  | nan => exact absurd rfl hs
  | inf s => cases s <;> simp [FloatVal.lt, FloatVal.le]
  | fin x =>
    cases beta with
    | nan => exact absurd rfl hb
    | inf s =>
      cases s <;> simp [FloatVal.lt, FloatVal.le] <;> split_ifs <;> simp_all
    | fin y =>
      simp only [FloatVal.lt, FloatVal.le, Bool.or_eq_true, Bool.and_eq_true,
        decide_eq_true_eq]
      split_ifs with h1 h2 h3 h4
      · simp only [reduceCtorEq, false_iff]
        intro h
        linarith [h.1.1.1.1.2]
      · simp only [reduceCtorEq, false_iff]
        intro h
        linarith [h.1.1.1.1.1]
      · simp only [reduceCtorEq, false_iff]
        intro h
        have := h.1.1.1.2
        have := h.1.1.2
        omega
      · simp only [reduceCtorEq, false_iff]
        intro h
        rcases h4 with h4 | h4
        · linarith [h.1.2]
        · linarith [h.2]
      · simp only [true_iff]
        simp only [not_or, not_lt] at h3 h4
        exact ⟨⟨⟨⟨⟨not_lt.mp h2, not_lt.mp h1⟩, by omega⟩, by omega⟩, h4.1⟩, h4.2⟩

/-- A negative argument of `-m`, stored in the `unsigned int m`, fails the range checks. -/
theorem negative_m_rejected (a : Args) (v : ℤ) (h1 : -2147483648 ≤ v) (h2 : v < 0)
    (ha : a.m = intToUInt32 v) : validate a ≠ none := by
  have hm : 20 < a.m := by
    rw [ha]
    unfold intToUInt32
    omega
  unfold validate
  split_ifs with c1 c2 c3 c4
  · simp
  · simp
  · simp
  · simp
  · exfalso
    apply c3
    simp only [Bool.or_eq_true, decide_eq_true_eq]
    right
    exact hm

end tx_rrc

namespace tx_rrc

/-- When a range check fails, `main` prints that error and makes no other call. -/
theorem tx_main_of_validate_some (undef : FloatVal → ℕ) (nw : ℕ → ℕ → ℕ) (opts : List Opt)
    (a : Args) (msg : String) (hp : getopt_loop opts defaults = some a)
    (hv : validate a = some msg) :
    main undef nw opts = ⟨[Event.printf msg], 0⟩ := by
  simp [main, hp, hv]

/-- When every range check passes, `main` goes on to the setup and the block loop. -/
theorem tx_main_of_validate_none (undef : FloatVal → ℕ) (nw : ℕ → ℕ → ℕ) (opts : List Opt)
    (a : Args) (hp : getopt_loop opts defaults = some a) (hv : validate a = none) :
    main undef nw opts = ⟨run undef nw a (interp_rate undef a.symbol_rate), 0⟩ := by
  simp [main, hp, hv]

/-- A run that gets past the range checks creates the `usrp_io` object. -/
theorem tx_new_usrp_io_mem_run (undef : FloatVal → ℕ) (nw : ℕ → ℕ → ℕ) (a : Args) (ir : ℕ) :
    Event.new_usrp_io ∈ run undef nw a ir := by
  rw [tx_run_eq]
  simp

/-- With no help option on the command line, `main` makes a call into the USRP driver or the
DSP library exactly when the range checks pass; otherwise its only call is the `printf` of
the error. -/
theorem tx_main_external_iff (undef : FloatVal → ℕ) (nw : ℕ → ℕ → ℕ) (opts : List Opt)
    (a : Args) (hp : getopt_loop opts defaults = some a) :
    ((∃ e ∈ (main undef nw opts).trace, e.isExternal = true) ↔ validate a = none)
      ∧ (validate a ≠ none →
          ∃ msg, validate a = some msg ∧ main undef nw opts = ⟨[Event.printf msg], 0⟩) := by
  cases hv : validate a with
  | none =>
    refine ⟨⟨fun _ => rfl, fun _ => ⟨Event.new_usrp_io, ?_, rfl⟩⟩, fun h => absurd rfl h⟩
    rw [tx_main_of_validate_none undef nw opts a hp hv]
    exact tx_new_usrp_io_mem_run undef nw a _
  | some msg =>
    refine ⟨⟨?_, fun h => by simp at h⟩, fun _ => ⟨msg, rfl, ?_⟩⟩
    · rw [tx_main_of_validate_some undef nw opts a msg hp hv]
      simp [Event.isExternal]
    · exact tx_main_of_validate_some undef nw opts a msg hp hv

/-- A help option anywhere in the list ends the option loop in the `usage()` case. -/
theorem tx_getopt_loop_help (opts : List Opt) (h : ∃ o ∈ opts, o.isHelp = true) (a : Args) :
    getopt_loop opts a = none := by
  induction opts generalizing a with
  | nil => simp at h
  | cons o rest ih =>
    have hrest : o.isHelp = false → ∃ o ∈ rest, o.isHelp = true := by
      intro ho
      obtain ⟨o', hmem, ho'⟩ := h
      rcases List.mem_cons.mp hmem with rfl | hmem
      · rw [ho] at ho'
        exact absurd ho' (by simp)
      · exact ⟨o', hmem, ho'⟩
    cases o <;> first
      | rfl
      | exact ih (hrest rfl) _

end tx_rrc

namespace ofdmframe_rx

/-- A help option anywhere in the list ends the option loop in the `usage()` case. -/
theorem rx_getopt_loop_help (opts : List Opt) (h : ∃ o ∈ opts, o.isHelp = true) (a : Args) :
    getopt_loop opts a = none := by
  induction opts generalizing a with
  | nil => simp at h
  | cons o rest ih =>
    have hrest : o.isHelp = false → ∃ o ∈ rest, o.isHelp = true := by
      intro ho
      obtain ⟨o', hmem, ho'⟩ := h
      rcases List.mem_cons.mp hmem with rfl | hmem
      · rw [ho] at ho'
        exact absurd ho' (by simp)
      · exact ⟨o', hmem, ho'⟩
    cases o <;> first
      | rfl
      | exact ih (hrest rfl) _

end ofdmframe_rx

/-! ## `ofdmframe_rx`: the calls of a run -/

namespace ofdmframe_rx

/-- The body of the inner loop leaves `data_rx` and the call counter alone and appends its
two calls. -/
theorem decim_fold {α : Type} (l : List ℕ) (st : State α) :
    l.foldl
        (fun (s : State α) i =>
          { s with
            trace := s.trace ++
              [ Event.resamp2_crcf_decim_execute i (s.data_rx i) (s.data_rx (i + 1)),
                Event.ofdmframesync_execute 1 ] })
        st
      = { st with
          trace := st.trace ++ l.flatMap (fun i =>
            [ Event.resamp2_crcf_decim_execute i (st.data_rx i) (st.data_rx (i + 1)),
              Event.ofdmframesync_execute 1 ]) } := by
  induction l generalizing st with
  | nil => simp
  | cons i l ih => simp [List.foldl_cons, ih, List.flatMap_cons, List.append_assoc]

/-- The inner loop makes its calls for `i = 0, 2, …, 510`, in order. -/
theorem decimate_eq {α : Type} (st : State α) :
    decimate st
      = { st with
          trace := st.trace ++ (List.range 256).flatMap (fun j =>
            [ Event.resamp2_crcf_decim_execute (2 * j) (st.data_rx (2 * j))
                (st.data_rx (2 * j + 1)),
              Event.ofdmframesync_execute 1 ]) } := by
  unfold decimate
  simp only [rx_buffer_length]
  rw [forLoop_step_two _ 512 (by norm_num) 512 0 st (by norm_num), decim_fold]
  simp [List.flatMap_map, Function.comp]

/-- One iteration of the receive loop: a `gport_consume` of 512 samples, then the decimator
and synchronizer calls on the samples just received. -/
theorem rx_block_eq {α : Type} (rx : ℕ → ℕ → α) (st : State α) :
    decimate (gport_consume rx rx_buffer_length st)
      = { trace := st.trace ++ (Event.gport_consume 512 :: decim_calls (rx st.consumed))
          data_rx := fun i => if i < 512 then some (rx st.consumed i) else st.data_rx i
          consumed := st.consumed + 1 } := by
  have hcalls : (List.range 256).flatMap (fun j =>
      [ Event.resamp2_crcf_decim_execute (2 * j)
          ((gport_consume rx 512 st).data_rx (2 * j))
          ((gport_consume rx 512 st).data_rx (2 * j + 1)),
        Event.ofdmframesync_execute 1 ]) = decim_calls (rx st.consumed) := by
    unfold decim_calls
    apply List.flatMap_congr
    intro j hj
    have hj256 : j < 256 := List.mem_range.mp hj
    have h0 : 2 * j < 512 := by omega
    have h1 : 2 * j + 1 < 512 := by omega
    simp [gport_consume, h0, h1]
  rw [decimate_eq]
  simp only [rx_buffer_length]
  rw [hcalls]
  simp [gport_consume, List.append_assoc]

/-- The receive loop after `c` earlier `gport_consume` calls: iteration `n` consumes block
`c + n` of the stream and decimates it. -/
theorem loop_eq {α : Type} (rx : ℕ → ℕ → α) (nb : ℕ) (st : State α) :
    ((List.range nb).foldl
        (fun (s : State α) (_ : ℕ) => decimate (gport_consume rx rx_buffer_length s)) st).trace
      = st.trace ++ (List.range nb).flatMap (fun n =>
          Event.gport_consume 512 :: decim_calls (rx (st.consumed + n)))
    ∧ ((List.range nb).foldl
        (fun (s : State α) (_ : ℕ) => decimate (gport_consume rx rx_buffer_length s)) st).consumed
      = st.consumed + nb := by
  induction nb with
  | zero => simp
  | succ nb ih =>
    obtain ⟨ih1, ih2⟩ := ih
    rw [List.range_succ, List.foldl_append]
    simp only [List.foldl_cons, List.foldl_nil]
    generalize List.foldl
      (fun (s : State α) (_ : ℕ) => decimate (gport_consume rx rx_buffer_length s)) st
      (List.range nb) = s at ih1 ih2 ⊢
    rw [rx_block_eq]
    refine ⟨?_, by simp only [ih2]; omega⟩
    simp [ih1, ih2, List.flatMap_append, List.append_assoc]

/-- The calls of a run that passed the range checks and whose array `p` fits the stack:
setup, the settling `gport_consume`, then for each of the `num_blocks` iterations a
`gport_consume` followed by the decimator and synchronizer calls on the block just received,
then teardown and `return 0`. -/
theorem rx_run_eq {α : Type} (stack : ℕ) (undef : FloatVal → ℕ) (rx : ℕ → ℕ → α) (a : Args)
    (hfit : 4 * a.M ≤ stack) :
    run stack undef rx a =
      { trace := setup_calls a
          ++ [Event.gport_consume 512, Event.printf "usrp data transfer started\n"]
          ++ (List.range (num_blocks undef a.bandwidth a.num_seconds)).flatMap (fun n =>
                Event.gport_consume 512 :: decim_calls (rx (n + 1)))
          ++ teardown_calls
        status := some 0 } := by
  unfold run
  simp only [hfit, if_true]
  have hnb : num_blocks undef a.bandwidth a.num_seconds < 4294967296 :=
    FloatVal.toUInt32_lt undef _
  rw [forLoop_range _ _ hnb, (loop_eq rx _ _).1]
  simp only [gport_consume, rx_buffer_length, USRP_CHANNEL, cp_len, setup_calls,
    teardown_calls, List.append_assoc, List.cons_append, List.nil_append, Nat.zero_add]
  simp [Nat.add_comm]

/-- A run whose array `p` does not fit the stack is killed after the calls that precede the
declaration of `p`. -/
theorem run_eq_of_stack_lt {α : Type} (stack : ℕ) (undef : FloatVal → ℕ) (rx : ℕ → ℕ → α)
    (a : Args) (hlt : stack < 4 * a.M) :
    run stack undef rx a = { trace := config_calls a, status := none } := by
  unfold run
  simp only [not_le.mpr hlt, if_false]
  simp [config_calls, USRP_CHANNEL]

/-- Every run that passed the range checks starts with the calls that precede the
declaration of `p`. -/
theorem config_calls_prefix {α : Type} (stack : ℕ) (undef : FloatVal → ℕ) (rx : ℕ → ℕ → α)
    (a : Args) :
    ∃ rest, (run stack undef rx a).trace = config_calls a ++ rest := by
  by_cases hfit : 4 * a.M ≤ stack
  · rw [rx_run_eq stack undef rx a hfit]
    exact ⟨[ Event.ofdmframe_init_default_sctype a.M, Event.ofdmframesync_create a.M 16,
        Event.ofdmframesync_print, Event.start_rx 0 ]
      ++ ([Event.gport_consume 512, Event.printf "usrp data transfer started\n"]
      ++ (List.range (num_blocks undef a.bandwidth a.num_seconds)).flatMap (fun n =>
            Event.gport_consume 512 :: decim_calls (rx (n + 1)))
      ++ teardown_calls), by simp [setup_calls, config_calls, List.append_assoc]⟩
  · rw [run_eq_of_stack_lt stack undef rx a (not_le.mp hfit)]
    exact ⟨[], by simp⟩

end ofdmframe_rx

/-! ## `ofdmframe_rx`: argument validation -/

namespace ofdmframe_rx

/-- The lower limit is 62.5 kHz and the upper limit 8 MHz. -/
theorem rx_limits_eq :
    min_bandwidth = .fin 62500 ∧ max_bandwidth = .fin 8000000 := by
  constructor
  · show FloatVal.fin (32000000 / 512) = FloatVal.fin 62500
    norm_num
  · show FloatVal.fin (32000000 / 4) = FloatVal.fin 8000000
    norm_num

/-- For a bandwidth that is not NaN, the range checks pass exactly when it lies in the
documented range, bounds included. -/
theorem rx_validate_eq_none_iff (a : Args) (hb : a.bandwidth ≠ .nan) :
    validate a = none ↔ in_range a = true := by
  obtain ⟨verbose, frequency, bandwidth, num_seconds, M⟩ := a
  simp only [validate, in_range, rx_limits_eq.1, rx_limits_eq.2, FloatVal.gt] at *
  cases bandwidth with
  | nan => exact absurd rfl hb
  | inf s => cases s <;> simp [FloatVal.lt, FloatVal.le]
  | fin x =>
    simp only [FloatVal.lt, FloatVal.le, Bool.and_eq_true, decide_eq_true_eq]
    split_ifs with h1 h2
    · simp only [reduceCtorEq, false_iff]
      intro h
      linarith [h.2]
    · simp only [reduceCtorEq, false_iff]
      intro h
      linarith [h.1]
    · simp only [true_iff]
      exact ⟨not_lt.mp h2, not_lt.mp h1⟩

/-- When a range check fails, `main` writes that error to `stderr`, makes no other call and
exits with status 1. -/
theorem rx_main_of_validate_some {α : Type} (stack : ℕ) (undef : FloatVal → ℕ)
    (rx : ℕ → ℕ → α) (opts : List Opt) (a : Args) (msg : String)
    (hp : getopt_loop opts defaults = some a) (hv : validate a = some msg) :
    main stack undef rx opts = ⟨[Event.fprintf_stderr msg], some 1⟩ := by
  simp [main, hp, hv]

/-- When both range checks pass, `main` goes on to the setup and the receive loop. -/
theorem rx_main_of_validate_none {α : Type} (stack : ℕ) (undef : FloatVal → ℕ)
    (rx : ℕ → ℕ → α) (opts : List Opt) (a : Args) (hp : getopt_loop opts defaults = some a)
    (hv : validate a = none) :
    main stack undef rx opts = run stack undef rx a := by
  simp [main, hp, hv]

/-- A run that gets past the range checks creates the `usrp_io` object, whatever the stack. -/
theorem rx_new_usrp_io_mem_run {α : Type} (stack : ℕ) (undef : FloatVal → ℕ)
    (rx : ℕ → ℕ → α) (a : Args) :
    Event.new_usrp_io ∈ (run stack undef rx a).trace := by
  obtain ⟨rest, h⟩ := config_calls_prefix stack undef rx a
  rw [h]
  simp [config_calls]

/-- With no help option on the command line, `main` makes a call into the USRP driver or the
DSP library exactly when the range checks pass, whatever the frequency, `M` and run time;
otherwise it only writes the error to `stderr` and exits with status 1. -/
theorem rx_main_external_iff {α : Type} (stack : ℕ) (undef : FloatVal → ℕ) (rx : ℕ → ℕ → α)
    (opts : List Opt) (a : Args) (hp : getopt_loop opts defaults = some a) :
    ((∃ e ∈ (main stack undef rx opts).trace, e.isExternal = true) ↔ validate a = none)
      ∧ (validate a ≠ none →
          ∃ msg, validate a = some msg
            ∧ main stack undef rx opts = ⟨[Event.fprintf_stderr msg], some 1⟩) := by
  cases hv : validate a with
  | none =>
    refine ⟨⟨fun _ => rfl, fun _ => ⟨Event.new_usrp_io, ?_, rfl⟩⟩, fun h => absurd rfl h⟩
    rw [rx_main_of_validate_none stack undef rx opts a hp hv]
    exact rx_new_usrp_io_mem_run stack undef rx a
  | some msg =>
    refine ⟨⟨?_, fun h => by simp at h⟩, fun _ => ⟨msg, rfl, ?_⟩⟩
    · rw [rx_main_of_validate_some stack undef rx opts a msg hp hv]
      simp [Event.isExternal]
    · exact rx_main_of_validate_some stack undef rx opts a msg hp hv

end ofdmframe_rx

/-! ## Claims on the command line -/

/-- C6: in both programs, when the option list contains `-u`, `-h` or an unrecognised option,
`main` prints the usage text, line by line as written here, and returns 0.  Nothing else is
printed (no range check of the options before it is reported) and no call goes to the USRP
driver or the DSP library. -/
theorem usage_on_help_option {α : Type} (stack : ℕ) (undef : FloatVal → ℕ) (nw : ℕ → ℕ → ℕ)
    (rx : ℕ → ℕ → α) (opts₁ : List tx_rrc.Opt) (opts₂ : List ofdmframe_rx.Opt)
    (h₁ : ∃ o ∈ opts₁, o.isHelp = true) (h₂ : ∃ o ∈ opts₂, o.isHelp = true) :
    tx_rrc.main undef nw opts₁
        = ⟨[ tx_rrc.Event.printf "packet_tx:\n",
             tx_rrc.Event.printf "  f     :   center frequency [Hz]\n",
             tx_rrc.Event.printf "  s     :   symbol rate [Hz] (62.5kHz min, 8MHz max)\n",
             tx_rrc.Event.printf "  t     :   run time [seconds]\n",
             tx_rrc.Event.printf "  m     :   filter delay [symbols]\n",
             tx_rrc.Event.printf
               "  b     :   filter excess bandwidth factor [0.0 min, 1.0 max]\n",
             tx_rrc.Event.printf "  q     :   quiet\n",
             tx_rrc.Event.printf "  v     :   verbose\n",
             tx_rrc.Event.printf "  u,h   :   usage/help\n" ], 0⟩
      ∧ ofdmframe_rx.main stack undef rx opts₂
        = ⟨[ ofdmframe_rx.Event.printf "ofdmframe_rx -- receive OFDM packets\n",
             ofdmframe_rx.Event.printf "  f     :   center frequency [Hz]\n",
             ofdmframe_rx.Event.printf "  b     :   bandwidth [Hz]\n",
             ofdmframe_rx.Event.printf "  M     :   number of subcarriers, default: 64\n",
             ofdmframe_rx.Event.printf "  t     :   run time [seconds]\n",
             ofdmframe_rx.Event.printf "  q     :   quiet\n",
             ofdmframe_rx.Event.printf "  v     :   verbose\n",
             ofdmframe_rx.Event.printf "  u,h   :   usage/help\n" ], some 0⟩
      ∧ (∀ e ∈ (tx_rrc.main undef nw opts₁).trace, e.isExternal = false)
      ∧ (∀ e ∈ (ofdmframe_rx.main stack undef rx opts₂).trace, e.isExternal = false) := by
  have e₁ : tx_rrc.main undef nw opts₁ = ⟨tx_rrc.usage, 0⟩ := by
    simp [tx_rrc.main, tx_rrc.tx_getopt_loop_help opts₁ h₁]
  have e₂ : ofdmframe_rx.main stack undef rx opts₂ = ⟨ofdmframe_rx.usage, some 0⟩ := by
    simp [ofdmframe_rx.main, ofdmframe_rx.rx_getopt_loop_help opts₂ h₂]
  refine ⟨e₁, e₂, ?_, ?_⟩
  · intro e he
    rw [e₁] at he
    simp only [tx_rrc.usage, List.mem_cons, List.mem_singleton, List.not_mem_nil,
      or_false] at he
    rcases he with rfl | rfl | rfl | rfl | rfl | rfl | rfl | rfl | rfl <;> rfl
  · intro e he
    rw [e₂] at he
    simp only [ofdmframe_rx.usage, List.mem_cons, List.mem_singleton, List.not_mem_nil,
      or_false] at he
    rcases he with rfl | rfl | rfl | rfl | rfl | rfl | rfl | rfl <;> rfl

/-- C6, at `-s 1 -h` for `tx_rrc` and `-b 1 -x -t 3` for `ofdmframe_rx`: the rates before the
help option are out of range, and still only the usage text is printed. -/
theorem usage_on_help_option_witness :
    (∃ o ∈ [tx_rrc.Opt.s (.fin 1), tx_rrc.Opt.h], o.isHelp = true)
      ∧ (∃ o ∈ [ofdmframe_rx.Opt.b (.fin 1), ofdmframe_rx.Opt.unknown,
            ofdmframe_rx.Opt.t (.fin 3)], o.isHelp = true)
      ∧ tx_rrc.main (fun _ => 0) (fun _ _ => 0) [tx_rrc.Opt.s (.fin 1), tx_rrc.Opt.h]
          = ⟨[ tx_rrc.Event.printf "packet_tx:\n",
               tx_rrc.Event.printf "  f     :   center frequency [Hz]\n",
               tx_rrc.Event.printf "  s     :   symbol rate [Hz] (62.5kHz min, 8MHz max)\n",
               tx_rrc.Event.printf "  t     :   run time [seconds]\n",
               tx_rrc.Event.printf "  m     :   filter delay [symbols]\n",
               tx_rrc.Event.printf
                 "  b     :   filter excess bandwidth factor [0.0 min, 1.0 max]\n",
               tx_rrc.Event.printf "  q     :   quiet\n",
               tx_rrc.Event.printf "  v     :   verbose\n",
               tx_rrc.Event.printf "  u,h   :   usage/help\n" ], 0⟩
      ∧ ofdmframe_rx.main 8388608 (fun _ => 0) (fun _ _ => (0 : ℕ))
          [ofdmframe_rx.Opt.b (.fin 1), ofdmframe_rx.Opt.unknown, ofdmframe_rx.Opt.t (.fin 3)]
          = ⟨[ ofdmframe_rx.Event.printf "ofdmframe_rx -- receive OFDM packets\n",
               ofdmframe_rx.Event.printf "  f     :   center frequency [Hz]\n",
               ofdmframe_rx.Event.printf "  b     :   bandwidth [Hz]\n",
               ofdmframe_rx.Event.printf "  M     :   number of subcarriers, default: 64\n",
               ofdmframe_rx.Event.printf "  t     :   run time [seconds]\n",
               ofdmframe_rx.Event.printf "  q     :   quiet\n",
               ofdmframe_rx.Event.printf "  v     :   verbose\n",
               ofdmframe_rx.Event.printf "  u,h   :   usage/help\n" ], some 0⟩ :=
  have h₁ : ∃ o ∈ [tx_rrc.Opt.s (.fin 1), tx_rrc.Opt.h], o.isHelp = true :=
    ⟨tx_rrc.Opt.h, by simp, rfl⟩
  have h₂ : ∃ o ∈ [ofdmframe_rx.Opt.b (.fin 1), ofdmframe_rx.Opt.unknown,
      ofdmframe_rx.Opt.t (.fin 3)], o.isHelp = true :=
    ⟨ofdmframe_rx.Opt.unknown, by simp, rfl⟩
  have h := usage_on_help_option 8388608 (fun _ => 0) (fun _ _ => 0) (fun _ _ => (0 : ℕ))
    _ _ h₁ h₂
  ⟨h₁, h₂, h.1, h.2.1⟩

/-- C1, at the command line `tx_rrc -b nan`: `atof` yields NaN for `beta`, both comparisons
`beta < 0.0f` and `beta > 1.0f` are false, and `main` goes on to create the `usrp_io` object
and to design the filter with a NaN excess-bandwidth factor, although `0.0 <= beta <= 1.0`
does not hold and no error is printed. -/
theorem tx_rrc_nan_beta_not_rejected (undef : FloatVal → ℕ) (nw : ℕ → ℕ → ℕ) :
    tx_rrc.getopt_loop [tx_rrc.Opt.b .nan] tx_rrc.defaults
        = some { tx_rrc.defaults with beta := .nan }
      ∧ tx_rrc.in_range { tx_rrc.defaults with beta := .nan } = false
      ∧ tx_rrc.validate { tx_rrc.defaults with beta := .nan } = none
      ∧ tx_rrc.main undef nw [tx_rrc.Opt.b .nan]
          = ⟨tx_rrc.run undef nw { tx_rrc.defaults with beta := .nan }
              (tx_rrc.interp_rate undef tx_rrc.min_symbol_rate), 0⟩
      ∧ tx_rrc.Event.new_usrp_io ∈ (tx_rrc.main undef nw [tx_rrc.Opt.b .nan]).trace
      ∧ tx_rrc.Event.design_rrc_filter 2 3 .nan (.fin 0) 13
          ∈ (tx_rrc.main undef nw [tx_rrc.Opt.b .nan]).trace := by
  have hp : tx_rrc.getopt_loop [tx_rrc.Opt.b .nan] tx_rrc.defaults
      = some { tx_rrc.defaults with beta := .nan } := rfl
  have hv : tx_rrc.validate { tx_rrc.defaults with beta := .nan } = none := by
    simp only [tx_rrc.validate, tx_rrc.defaults, tx_rrc.tx_limits_eq.1, tx_rrc.tx_limits_eq.2,
      FloatVal.gt, FloatVal.lt]
    norm_num
  have hm := tx_rrc.tx_main_of_validate_none undef nw _ _ hp hv
  refine ⟨hp, ?_, hv, hm, ?_, ?_⟩
  · simp [tx_rrc.in_range, tx_rrc.defaults, FloatVal.le]
  · rw [hm]
    exact tx_rrc.tx_new_usrp_io_mem_run undef nw _ _
  · rw [hm]
    show _ ∈ tx_rrc.run undef nw _ _
    rw [tx_rrc.tx_run_eq]
    refine List.mem_append_left _ (List.mem_append_left _ ?_)
    iterate 9 apply List.mem_cons_of_mem
    exact List.mem_cons_self _ _

/-- C2, at the command line `ofdmframe_rx -b nan`: `atof` yields NaN for `bandwidth`, both
comparisons with the limits are false, and `main` goes on to create the `usrp_io` object and
to set the sample rate NaN, although `62500 <= bandwidth <= 8000000` does not hold; nothing
is written to `stderr` and the exit status is not 1 (it is 0 when the array `p[64]` fits the
stack). -/
theorem ofdmframe_rx_nan_bandwidth_not_rejected {α : Type} (stack : ℕ)
    (undef : FloatVal → ℕ) (rx : ℕ → ℕ → α) :
    ofdmframe_rx.getopt_loop [ofdmframe_rx.Opt.b .nan] ofdmframe_rx.defaults
        = some { ofdmframe_rx.defaults with bandwidth := .nan }
      ∧ ofdmframe_rx.in_range { ofdmframe_rx.defaults with bandwidth := .nan } = false
      ∧ ofdmframe_rx.validate { ofdmframe_rx.defaults with bandwidth := .nan } = none
      ∧ ofdmframe_rx.main stack undef rx [ofdmframe_rx.Opt.b .nan]
          = ofdmframe_rx.run stack undef rx { ofdmframe_rx.defaults with bandwidth := .nan }
      ∧ ofdmframe_rx.Event.new_usrp_io
          ∈ (ofdmframe_rx.main stack undef rx [ofdmframe_rx.Opt.b .nan]).trace
      ∧ ofdmframe_rx.Event.set_rx_samplerate .nan
          ∈ (ofdmframe_rx.main stack undef rx [ofdmframe_rx.Opt.b .nan]).trace
      ∧ (ofdmframe_rx.main stack undef rx [ofdmframe_rx.Opt.b .nan]).status
          = if 4 * 64 ≤ stack then some 0 else none := by
  have hp : ofdmframe_rx.getopt_loop [ofdmframe_rx.Opt.b .nan] ofdmframe_rx.defaults
      = some { ofdmframe_rx.defaults with bandwidth := .nan } := rfl
  have hv : ofdmframe_rx.validate { ofdmframe_rx.defaults with bandwidth := .nan } = none := by
    simp [ofdmframe_rx.validate, ofdmframe_rx.defaults, FloatVal.gt, FloatVal.lt]
  have hm := ofdmframe_rx.rx_main_of_validate_none stack undef rx _ _ hp hv
  refine ⟨hp, ?_, hv, hm, ?_, ?_, ?_⟩
  · simp [ofdmframe_rx.in_range, ofdmframe_rx.defaults, FloatVal.le]
  · rw [hm]
    exact ofdmframe_rx.rx_new_usrp_io_mem_run stack undef rx _
  · rw [hm]
    obtain ⟨rest, h⟩ := ofdmframe_rx.config_calls_prefix stack undef rx
      { ofdmframe_rx.defaults with bandwidth := .nan }
    rw [h]
    simp [ofdmframe_rx.config_calls, ofdmframe_rx.defaults, ofdmframe_rx.rx_samplerate,
      FloatVal.fmul32, FloatVal.mul]
  · rw [hm]
    by_cases hfit : 4 * 64 ≤ stack
    · rw [ofdmframe_rx.rx_run_eq stack undef rx _ hfit, if_pos hfit]
    · rw [ofdmframe_rx.run_eq_of_stack_lt stack undef rx _ (not_le.mp hfit), if_neg hfit]

/-! ## `tx_rrc`: rates -/

namespace tx_rrc

/-- For a symbol rate within the limits, `32e6 / symbol_rate` lies in `[4, 512]` and
`interp_rate` is its integer part with the two low bits cleared. -/
theorem interp_rate_fin (undef : FloatVal → ℕ) (s : ℚ) (h1 : 62500 ≤ s) (h2 : s ≤ 8000000) :
    interp_rate undef (.fin s) = ⌊(32000000 : ℚ) / s⌋₊ - ⌊(32000000 : ℚ) / s⌋₊ % 4
      ∧ 4 ≤ ⌊(32000000 : ℚ) / s⌋₊ ∧ ⌊(32000000 : ℚ) / s⌋₊ ≤ 512 := by
  have hs : (0 : ℚ) < s := by linarith
  have hlo : (4 : ℚ) ≤ 32000000 / s := by
    rw [le_div_iff₀ hs]
    linarith
  have hhi : (32000000 : ℚ) / s ≤ 512 := by
    rw [div_le_iff₀ hs]
    linarith
  have hf4 : 4 ≤ ⌊(32000000 : ℚ) / s⌋₊ := Nat.le_floor (by exact_mod_cast hlo)
  have hf512 : ⌊(32000000 : ℚ) / s⌋₊ ≤ 512 := by
    have : ⌊(32000000 : ℚ) / s⌋₊ < 513 :=
      (Nat.floor_lt (by linarith)).mpr (by push_cast; linarith)
    omega
  refine ⟨?_, hf4, hf512⟩
  have hdiv : FloatVal.div (.fin 32000000) (.fin s) = .fin (32000000 / s) := by
    simp [FloatVal.div, hs.ne']
  unfold interp_rate
  simp only [hdiv]
  rw [FloatVal.toUInt32_fin undef _ (by linarith) (by linarith)]
  exact shift_clears_low_bits _ (by omega)

end tx_rrc

/-- C7: `(x >> 2) << 2` equals `x - x mod 4` on every unsigned 32-bit `x`; and for every
symbol rate with `62500 <= symbol_rate <= 8000000` the interpolation rate handed to the USRP
is `4 * floor(floor(32000000 / symbol_rate) / 4)`, a multiple of 4 in `[4, 512]`, so the
division `32e6 / interp_rate` has a non-zero divisor and a finite result. -/
theorem interp_rate_multiple_of_four (undef : FloatVal → ℕ) (x : ℕ) (s : ℚ)
    (hx : x < 4294967296) (h1 : 62500 ≤ s) (h2 : s ≤ 8000000) :
    ((x >>> 2) <<< 2) % 4294967296 = x - x % 4
      ∧ tx_rrc.interp_rate undef (.fin s) = 4 * (⌊(32000000 : ℚ) / s⌋₊ / 4)
      ∧ 4 ∣ tx_rrc.interp_rate undef (.fin s)
      ∧ 4 ≤ tx_rrc.interp_rate undef (.fin s)
      ∧ tx_rrc.interp_rate undef (.fin s) ≤ 512
      ∧ tx_rrc.usrp_symbol_rate (tx_rrc.interp_rate undef (.fin s))
          = .fin (32000000 / (tx_rrc.interp_rate undef (.fin s) : ℚ)) := by
  obtain ⟨hir, hf4, hf512⟩ := tx_rrc.interp_rate_fin undef s h1 h2
  have heq : tx_rrc.interp_rate undef (.fin s) = 4 * (⌊(32000000 : ℚ) / s⌋₊ / 4) := by
    rw [hir]
    omega
  have h4 : 4 ≤ tx_rrc.interp_rate undef (.fin s) := by
    rw [heq]
    omega
  refine ⟨shift_clears_low_bits x hx, heq, ?_, h4, ?_, ?_⟩
  · rw [heq]
    exact Dvd.intro _ rfl
  · rw [heq]
    omega
  · have hne : (tx_rrc.interp_rate undef (.fin s) : ℚ) ≠ 0 := by
      have : (0 : ℚ) < (tx_rrc.interp_rate undef (.fin s) : ℚ) := by
        exact_mod_cast (by omega : 0 < tx_rrc.interp_rate undef (.fin s))
      exact this.ne'
    have h512 : tx_rrc.interp_rate undef (.fin s) ≤ 2 ^ 24 := by
      rw [heq]
      omega
    simp [tx_rrc.usrp_symbol_rate, FloatVal.ofUInt32, FloatVal.round32_natCast _ h512,
      FloatVal.div, hne]

/-- C7, at `x = 513` and the symbol rate 62501 Hz. -/
theorem interp_rate_multiple_of_four_witness :
    513 < 4294967296 ∧ (62500 : ℚ) ≤ 62501 ∧ (62501 : ℚ) ≤ 8000000
      ∧ ((513 >>> 2) <<< 2) % 4294967296 = 513 - 513 % 4
      ∧ 4 ∣ tx_rrc.interp_rate (fun _ => 0) (.fin 62501)
      ∧ 4 ≤ tx_rrc.interp_rate (fun _ => 0) (.fin 62501)
      ∧ tx_rrc.interp_rate (fun _ => 0) (.fin 62501) ≤ 512 :=
  have h := interp_rate_multiple_of_four (fun _ => 0) 513 62501
    (by norm_num) (by norm_num) (by norm_num)
  ⟨by norm_num, by norm_num, by norm_num, h.1, h.2.2.1, h.2.2.2.1, h.2.2.2.2.1⟩

/-- C9: for every symbol rate with `62500 <= symbol_rate <= 8000000` the resampling rate
`r = usrp_symbol_rate / symbol_rate` is the finite value `32000000 / (interp_rate *
symbol_rate)`, it satisfies `1 <= r < 2`, and `r = 1` exactly when `32000000 / symbol_rate`
is an integer multiple of 4. -/
theorem resampling_rate_bounds (undef : FloatVal → ℕ) (s : ℚ) (h1 : 62500 ≤ s)
    (h2 : s ≤ 8000000) :
    ∃ ρ : ℚ, tx_rrc.r (tx_rrc.interp_rate undef (.fin s)) (.fin s) = .fin ρ
      ∧ ρ = 32000000 / ((tx_rrc.interp_rate undef (.fin s) : ℚ) * s)
      ∧ 1 ≤ ρ ∧ ρ < 2
      ∧ (ρ = 1 ↔ ∃ n : ℕ, (32000000 : ℚ) / s = 4 * n) := by
  obtain ⟨hir, hf4, hf512⟩ := tx_rrc.interp_rate_fin undef s h1 h2
  have hs : (0 : ℚ) < s := by linarith
  have hx0 : (0 : ℚ) ≤ 32000000 / s := by positivity
  have hfl : ((⌊(32000000 : ℚ) / s⌋₊ : ℕ) : ℚ) ≤ 32000000 / s := Nat.floor_le hx0
  have hfu : (32000000 : ℚ) / s < (⌊(32000000 : ℚ) / s⌋₊ : ℕ) + 1 := Nat.lt_floor_add_one _
  have hirN : tx_rrc.interp_rate undef (.fin s) ≤ ⌊(32000000 : ℚ) / s⌋₊
      ∧ ⌊(32000000 : ℚ) / s⌋₊ + 1 ≤ tx_rrc.interp_rate undef (.fin s) + 4
      ∧ 4 ≤ tx_rrc.interp_rate undef (.fin s) := by
    rw [hir]
    omega
  have hlo : (tx_rrc.interp_rate undef (.fin s) : ℚ) ≤ 32000000 / s :=
    le_trans (by exact_mod_cast hirN.1) hfl
  have hhi : (32000000 : ℚ) / s < (tx_rrc.interp_rate undef (.fin s) : ℚ) + 4 :=
    lt_of_lt_of_le hfu (by exact_mod_cast hirN.2.1)
  have hir4 : (4 : ℚ) ≤ (tx_rrc.interp_rate undef (.fin s) : ℚ) := by exact_mod_cast hirN.2.2
  have hirpos : (0 : ℚ) < (tx_rrc.interp_rate undef (.fin s) : ℚ) := by linarith
  have hprod : (0 : ℚ) < (tx_rrc.interp_rate undef (.fin s) : ℚ) * s := mul_pos hirpos hs
  have hlo' : (tx_rrc.interp_rate undef (.fin s) : ℚ) * s ≤ 32000000 :=
    (le_div_iff₀ hs).mp hlo
  have hhi' : (32000000 : ℚ) < ((tx_rrc.interp_rate undef (.fin s) : ℚ) + 4) * s :=
    (div_lt_iff₀ hs).mp hhi
  refine ⟨32000000 / ((tx_rrc.interp_rate undef (.fin s) : ℚ) * s), ?_, rfl, ?_, ?_, ?_⟩
  · have h24 : tx_rrc.interp_rate undef (.fin s) ≤ 2 ^ 24 := by
      rw [hir]
      omega
    simp [tx_rrc.r, tx_rrc.usrp_symbol_rate, FloatVal.ofUInt32,
      FloatVal.round32_natCast _ h24, FloatVal.div, hirpos.ne', hs.ne', div_div]
  · rw [le_div_iff₀ hprod]
    linarith
  · rw [div_lt_iff₀ hprod]
    nlinarith
  · rw [div_eq_one_iff_eq hprod.ne']
    constructor
    · intro h
      refine ⟨⌊(32000000 : ℚ) / s⌋₊ / 4, ?_⟩
      have hq : (tx_rrc.interp_rate undef (.fin s) : ℚ)
          = 4 * ((⌊(32000000 : ℚ) / s⌋₊ / 4 : ℕ) : ℚ) := by
        have : tx_rrc.interp_rate undef (.fin s) = 4 * (⌊(32000000 : ℚ) / s⌋₊ / 4) := by
          rw [hir]
          omega
        exact_mod_cast this
      rw [← hq, div_eq_iff hs.ne']
      exact h
    · rintro ⟨n, hn⟩
      have hfloor : ⌊(32000000 : ℚ) / s⌋₊ = 4 * n := by
        rw [hn]
        exact_mod_cast Nat.floor_natCast (4 * n)
      have hirn : tx_rrc.interp_rate undef (.fin s) = 4 * n := by
        rw [hir, hfloor]
        omega
      rw [hirn]
      push_cast
      rw [← hn, div_mul_cancel₀ _ hs.ne']

/-- C9, at the symbol rate 62501 Hz. -/
theorem resampling_rate_bounds_witness :
    (62500 : ℚ) ≤ 62501 ∧ (62501 : ℚ) ≤ 8000000
      ∧ ∃ ρ : ℚ, tx_rrc.r (tx_rrc.interp_rate (fun _ => 0) (.fin 62501)) (.fin 62501) = .fin ρ
          ∧ 1 ≤ ρ ∧ ρ < 2 :=
  have h := resampling_rate_bounds (fun _ => 0) 62501 (by norm_num) (by norm_num)
  ⟨by norm_num, by norm_num, h.choose, h.choose_spec.1, h.choose_spec.2.2.1,
    h.choose_spec.2.2.2.1⟩

/-- Every quotient by NaN is NaN. -/
theorem FloatVal.div_nan (x : FloatVal) : FloatVal.div x .nan = .nan := by
  cases x <;> rfl

/-- C9, at the command line `tx_rrc -s nan`: `atof` yields NaN for `symbol_rate`, both
comparisons with the limits are false, so this symbol rate passes the range checks; the
resampling rate `r = usrp_symbol_rate / symbol_rate` is then NaN, neither `1 <= r` nor
`r < 2` holds, and the resampler is created with it. -/
theorem tx_rrc_nan_symbol_rate_resampling (undef : FloatVal → ℕ) (nw : ℕ → ℕ → ℕ) :
    tx_rrc.getopt_loop [tx_rrc.Opt.s .nan] tx_rrc.defaults
        = some { tx_rrc.defaults with symbol_rate := .nan }
      ∧ tx_rrc.validate { tx_rrc.defaults with symbol_rate := .nan } = none
      ∧ tx_rrc.r (tx_rrc.interp_rate undef .nan) .nan = .nan
      ∧ FloatVal.le (.fin 1) (tx_rrc.r (tx_rrc.interp_rate undef .nan) .nan) = false
      ∧ FloatVal.lt (tx_rrc.r (tx_rrc.interp_rate undef .nan) .nan) (.fin 2) = false
      ∧ tx_rrc.Event.resamp_crcf_create .nan 13 (.fin (1 / 2)) (.fin 60) 32
          ∈ (tx_rrc.main undef nw [tx_rrc.Opt.s .nan]).trace := by
  have hp : tx_rrc.getopt_loop [tx_rrc.Opt.s .nan] tx_rrc.defaults
      = some { tx_rrc.defaults with symbol_rate := .nan } := rfl
  have hv : tx_rrc.validate { tx_rrc.defaults with symbol_rate := .nan } = none := by
    simp [tx_rrc.validate, tx_rrc.defaults, FloatVal.gt, FloatVal.lt]
    norm_num
  have hr : ∀ ir : ℕ, tx_rrc.r ir .nan = .nan := fun ir => FloatVal.div_nan _
  have hm := tx_rrc.tx_main_of_validate_none undef nw _ _ hp hv
  refine ⟨hp, hv, hr _, ?_, ?_, ?_⟩
  · rw [hr]
    rfl
  · rw [hr]
    rfl
  · rw [hm]
    show _ ∈ tx_rrc.run undef nw _ _
    rw [tx_rrc.tx_run_eq]
    refine List.mem_append_left _ (List.mem_append_left _ ?_)
    iterate 12 apply List.mem_cons_of_mem
    show tx_rrc.Event.resamp_crcf_create .nan 13 (.fin (1 / 2)) (.fin 60) 32
      ∈ tx_rrc.Event.resamp_crcf_create (tx_rrc.r _ .nan) 13 (.fin (1 / 2)) (.fin 60) 32 :: _
    rw [hr]
    exact List.mem_cons_self _ _

/-! ## Run time -/

namespace FloatVal

/-- The `float` product of two small natural numbers is exact. -/
theorem fmul32_natCast (a b : ℕ) (h : a * b ≤ 2 ^ 24) :
    fmul32 (fin a) (fin b) = fin ((a * b : ℕ) : ℚ) := by
  have hr := round32_natCast (a * b) h
  simp only [fmul32, mul]
  rw [← hr]
  push_cast
  rfl

end FloatVal

namespace tx_rrc

/-- The product `4.0f*symbol_rate` is exact for a binary32 symbol rate within the limits. -/
theorem four_mul_exact (s : ℚ) (hs32 : FloatVal.isBinary32 s) (h1 : 62500 ≤ s)
    (h2 : s ≤ 8000000) :
    FloatVal.fmul32 (.fin 4) (.fin s) = .fin (4 * s) := by
  have h := FloatVal.round32_scale s 2 hs32 (by linarith)
    (lt_of_le_of_lt (by linarith : (2 : ℚ) ^ 2 * s ≤ 32000000) (by norm_num))
  have e : (2 : ℚ) ^ 2 * s = 4 * s := by norm_num
  rw [e] at h
  simpa [FloatVal.fmul32, FloatVal.mul] using h

/-- The block count of `tx_rrc` for a binary32 symbol rate within the limits and a run time
`t >= 0`: with `P` the binary32 product `4.0f*symbol_rate*t`, `num_blocks = floor(P / 512)`,
and `512 * num_blocks` is `4 * symbol_rate * t` up to one block and the relative rounding
error `2 ^ -24`. -/
theorem tx_num_blocks_spec (undef : FloatVal → ℕ) (s t : ℚ) (hs32 : FloatVal.isBinary32 s)
    (h1 : 62500 ≤ s) (h2 : s ≤ 8000000) (ht : 0 ≤ t)
    (hfit : s * t * (1 + 1 / 2 ^ 24) < 128 * 4294967296) :
    ∃ P : ℚ, FloatVal.fmul32 (FloatVal.fmul32 (.fin 4) (.fin s)) (.fin t) = .fin P
      ∧ num_blocks undef (.fin s) (.fin t) = ⌊P / 512⌋₊
      ∧ 512 * (⌊P / 512⌋₊ : ℚ) ≤ 4 * s * t * (1 + 1 / 2 ^ 24)
      ∧ 4 * s * t * (1 - 1 / 2 ^ 24) < 512 * ((⌊P / 512⌋₊ : ℚ) + 1) := by
  have hs : (0 : ℚ) ≤ s := by linarith
  have hp : (0 : ℚ) ≤ 4 * s * t := by positivity
  obtain ⟨P, hP, hcount, hlo, hhi⟩ := FloatVal.block_count undef (4 * s * t) hp (by linarith)
  have hprod : FloatVal.fmul32 (FloatVal.fmul32 (.fin 4) (.fin s)) (.fin t) = .fin P := by
    rw [four_mul_exact s hs32 h1 h2]
    simpa [FloatVal.fmul32, FloatVal.mul] using hP
  refine ⟨P, hprod, ?_, hlo, hhi⟩
  unfold num_blocks
  rw [hprod]
  exact hcount

end tx_rrc

namespace ofdmframe_rx

/-- The product `2.0f*bandwidth` is exact for a binary32 bandwidth within the limits. -/
theorem two_mul_exact (b : ℚ) (hb32 : FloatVal.isBinary32 b) (h1 : 62500 ≤ b)
    (h2 : b ≤ 8000000) :
    FloatVal.fmul32 (.fin 2) (.fin b) = .fin (2 * b) := by
  have h := FloatVal.round32_scale b 1 hb32 (by linarith)
    (lt_of_le_of_lt (by linarith : (2 : ℚ) ^ 1 * b ≤ 16000000) (by norm_num))
  have e : (2 : ℚ) ^ 1 * b = 2 * b := by norm_num
  rw [e] at h
  simpa [FloatVal.fmul32, FloatVal.mul] using h

/-- The conversion of `rx_buffer_length` to `float` is exact. -/
theorem rx_buffer_length_exact : FloatVal.ofUInt32 rx_buffer_length = .fin 512 := by
  have h := FloatVal.round32_natCast 512 (by norm_num)
  simpa [FloatVal.ofUInt32, rx_buffer_length] using h

/-- The block count of `ofdmframe_rx` for a binary32 bandwidth within the limits and a run
time `t >= 0`: with `P` the binary32 product `2.0f*bandwidth*t`, `num_blocks = floor(P / 512)`,
and the `512 * num_blocks` samples read in the main loop are `2 * bandwidth * t` samples up to
one block and the relative rounding error `2 ^ -24`. -/
theorem rx_num_blocks_spec (undef : FloatVal → ℕ) (b t : ℚ) (hb32 : FloatVal.isBinary32 b)
    (h1 : 62500 ≤ b) (h2 : b ≤ 8000000) (ht : 0 ≤ t)
    (hfit : b * t * (1 + 1 / 2 ^ 24) < 256 * 4294967296) :
    ∃ P : ℚ, FloatVal.fmul32 (FloatVal.fmul32 (.fin 2) (.fin b)) (.fin t) = .fin P
      ∧ num_blocks undef (.fin b) (.fin t) = ⌊P / 512⌋₊
      ∧ 512 * (⌊P / 512⌋₊ : ℚ) ≤ 2 * b * t * (1 + 1 / 2 ^ 24)
      ∧ 2 * b * t * (1 - 1 / 2 ^ 24) < 512 * ((⌊P / 512⌋₊ : ℚ) + 1) := by
  have hb : (0 : ℚ) ≤ b := by linarith
  have hp : (0 : ℚ) ≤ 2 * b * t := by positivity
  obtain ⟨P, hP, hcount, hlo, hhi⟩ := FloatVal.block_count undef (2 * b * t) hp (by linarith)
  have hprod : FloatVal.fmul32 (FloatVal.fmul32 (.fin 2) (.fin b)) (.fin t) = .fin P := by
    rw [two_mul_exact b hb32 h1 h2]
    simpa [FloatVal.fmul32, FloatVal.mul] using hP
  refine ⟨P, hprod, ?_, hlo, hhi⟩
  unfold num_blocks
  rw [hprod, rx_buffer_length_exact]
  exact hcount

/-- At the default bandwidth and run time every `float` operation of `num_blocks` is exact and
the block count is 1220. -/
theorem num_blocks_default (undef : FloatVal → ℕ) :
    num_blocks undef (.fin 62500) (.fin 5) = 1220 := by
  have h1 : FloatVal.fmul32 (.fin 2) (.fin 62500) = .fin 125000 := by
    have h := FloatVal.fmul32_natCast 2 62500 (by norm_num)
    norm_num at h
    exact h
  have h2 : FloatVal.fmul32 (.fin 125000) (.fin 5) = .fin 625000 := by
    have h := FloatVal.fmul32_natCast 125000 5 (by norm_num)
    norm_num at h
    exact h
  have h3 : FloatVal.round32 ((625000 : ℚ) / 512) = .fin (625000 / 512) := by
    have h := FloatVal.round32_exact 78125 (-6) (by norm_num) (by norm_num) (by norm_num)
      (by norm_num)
    have e : ((78125 : ℤ) : ℚ) * 2 ^ (-6 : ℤ) = 625000 / 512 := by norm_num
    rw [e] at h
    exact h
  unfold num_blocks
  rw [h1, h2, rx_buffer_length_exact, FloatVal.fdiv32_512, h3,
    FloatVal.toUInt32_fin undef _ (by norm_num) (by norm_num),
    Nat.floor_eq_iff (by norm_num)]
  norm_num

end ofdmframe_rx

/-- C3, at the default command line of `ofdmframe_rx` (bandwidth 62500 Hz, run time 5 s): the
USRP is set to `2*2*bandwidth = 250000` samples per second, so 5 seconds are 1250000 samples,
but `num_blocks` is `floor(2 * 62500 * 5 / 512) = 1220` and the main loop reads only
`512 * 1220 = 624640` samples: `4 * bandwidth * t < 512 * (num_blocks + 1)` fails. -/
theorem ofdmframe_rx_reads_half_the_run_time (undef : FloatVal → ℕ) :
    ofdmframe_rx.getopt_loop [] ofdmframe_rx.defaults = some ofdmframe_rx.defaults
      ∧ ofdmframe_rx.defaults.bandwidth = .fin 62500
      ∧ ofdmframe_rx.defaults.num_seconds = .fin 5
      ∧ ofdmframe_rx.validate ofdmframe_rx.defaults = none
      ∧ ofdmframe_rx.rx_samplerate (.fin 62500) = .fin 250000
      ∧ ofdmframe_rx.num_blocks undef (.fin 62500) (.fin 5) = 1220
      ∧ ¬ ((4 * 62500 * 5 : ℚ)
            < 512 * ((ofdmframe_rx.num_blocks undef (.fin 62500) (.fin 5) : ℚ) + 1)) := by
  have hnb := ofdmframe_rx.num_blocks_default undef
  refine ⟨rfl, ofdmframe_rx.rx_limits_eq.1, rfl, ?_, ?_, hnb, ?_⟩
  · simp only [ofdmframe_rx.validate, ofdmframe_rx.defaults, ofdmframe_rx.rx_limits_eq.1,
      ofdmframe_rx.rx_limits_eq.2, FloatVal.gt, FloatVal.lt]
    norm_num
  · have h1 : FloatVal.fmul32 (.fin 2) (.fin 2) = .fin 4 := by
      have h := FloatVal.fmul32_natCast 2 2 (by norm_num)
      norm_num at h
      exact h
    have h2 : FloatVal.fmul32 (.fin 4) (.fin 62500) = .fin 250000 := by
      have h := FloatVal.fmul32_natCast 4 62500 (by norm_num)
      norm_num at h
      exact h
    rw [ofdmframe_rx.rx_samplerate, h1, h2]
  · rw [hnb]
    norm_num

namespace tx_rrc

/-- At the symbol rate 8 MHz and the run time `0.7f = 11744051 / 2 ^ 24` the `float` product
`4.0f*symbol_rate*t` rounds up to 22400000 and the block count is 43750. -/
theorem num_blocks_rounds_up (undef : FloatVal → ℕ) :
    num_blocks undef (.fin 8000000) (.fin (11744051 / 16777216)) = 43750 := by
  have h1 : FloatVal.fmul32 (.fin 4) (.fin 8000000) = .fin 32000000 := by
    have h := FloatVal.round32_exact 15625 11 (by norm_num) (by norm_num) (by norm_num)
      (by norm_num)
    have e : ((15625 : ℤ) : ℚ) * 2 ^ (11 : ℤ) = 32000000 := by norm_num
    rw [e] at h
    have e2 : (4 : ℚ) * 8000000 = 32000000 := by norm_num
    simp only [FloatVal.fmul32, FloatVal.mul]
    rw [e2]
    exact h
  have h2 : FloatVal.fmul32 (.fin 32000000) (.fin (11744051 / 16777216)) = .fin 22400000 := by
    have h := FloatVal.round32_eval (32000000 * (11744051 / 16777216)) 24 11200000
      (by norm_num) (by norm_num) (by norm_num)
      (by rw [abs_lt]; constructor <;> norm_num) (by norm_num)
    have e : ((11200000 : ℤ) : ℚ) * 2 ^ ((24 : ℤ) - 23) = 22400000 := by norm_num
    rw [e] at h
    simp only [FloatVal.fmul32, FloatVal.mul]
    exact h
  have h3 : FloatVal.round32 ((22400000 : ℚ) / 512) = .fin 43750 := by
    have h := FloatVal.round32_natCast 43750 (by norm_num)
    have e : ((43750 : ℕ) : ℚ) = 22400000 / 512 := by norm_num
    rw [e] at h
    rw [h]
    norm_num
  unfold num_blocks
  rw [h1, h2, FloatVal.fdiv32_512, h3, FloatVal.toUInt32_fin undef _ (by norm_num) (by norm_num)]
  exact_mod_cast Nat.floor_natCast 43750

end tx_rrc

/-- C4 fails in two ways.  At the symbol rate 8 MHz and the run time `0.7f` the `float`
product `4.0f*symbol_rate*t` rounds up from 22399999.6 to 22400000, so `num_blocks` is 43750
while `floor(4 * symbol_rate * t / 512)` is 43749, and `128 * num_blocks > symbol_rate * t`.
At the symbol rate 8 MHz and the run time 1048576 s the block count 65536000000 does not fit
the `unsigned int` `num_blocks`: whatever value the conversion leaves there, neither
`num_blocks = floor(4 * symbol_rate * t / 512)` nor
`symbol_rate * t < 128 * (num_blocks + 1)` holds. -/
theorem tx_rrc_num_blocks_counterexample :
    (¬ ∃ undef : FloatVal → ℕ,
        tx_rrc.num_blocks undef (.fin 8000000) (.fin (11744051 / 16777216))
            = ⌊(4 * 8000000 * (11744051 / 16777216) : ℚ) / 512⌋₊
          ∨ 128 * (tx_rrc.num_blocks undef (.fin 8000000) (.fin (11744051 / 16777216)) : ℚ)
            ≤ 8000000 * (11744051 / 16777216))
      ∧ ¬ ∃ undef : FloatVal → ℕ,
        tx_rrc.num_blocks undef (.fin 8000000) (.fin 1048576)
            = ⌊(4 * 8000000 * 1048576 : ℚ) / 512⌋₊
          ∨ (8000000 * 1048576 : ℚ)
            < 128 * ((tx_rrc.num_blocks undef (.fin 8000000) (.fin 1048576) : ℚ) + 1) := by
  constructor
  · rintro ⟨undef, h⟩
    rw [tx_rrc.num_blocks_rounds_up undef] at h
    rcases h with h | h
    · have hfl : ⌊(4 * 8000000 * (11744051 / 16777216) : ℚ) / 512⌋₊ = 43749 := by
        rw [Nat.floor_eq_iff (by norm_num)]
        norm_num
      rw [hfl] at h
      omega
    · norm_num at h
  · rintro ⟨undef, h⟩
    have hlt : tx_rrc.num_blocks undef (.fin 8000000) (.fin 1048576) < 4294967296 :=
      FloatVal.toUInt32_lt undef _
    have hltq : (tx_rrc.num_blocks undef (.fin 8000000) (.fin 1048576) : ℚ) < 4294967296 := by
      exact_mod_cast hlt
    rcases h with h | h
    · have hfl : ⌊(4 * 8000000 * 1048576 : ℚ) / 512⌋₊ = 65536000000 := by
        rw [Nat.floor_eq_iff (by norm_num)]
        norm_num
      rw [hfl] at h
      omega
    · linarith

/-- C4, amended: for every symbol rate with `62500 <= symbol_rate <= 8000000` (a binary32
value, as every `float` is) and every run time `t >= 0` with
`symbol_rate * t * (1 + 2 ^ -24) < 128 * 2 ^ 32` (the block count fits the 32-bit
`num_blocks`), `num_blocks = floor(P / 512)` where `P` is the `float` product
`4.0f*symbol_rate*t`, each block holds `num_symbols = 128` symbols at `k * 2 = 4` samples per
symbol, 512 samples, and the symbols sent cover `t` seconds up to one block and the relative
rounding error `2 ^ -24` of the product: `128 * num_blocks <= symbol_rate * t * (1 + 2 ^ -24)`
and `symbol_rate * t * (1 - 2 ^ -24) < 128 * (num_blocks + 1)`. -/
theorem tx_rrc_num_blocks_covers_run_time (undef : FloatVal → ℕ) (s t : ℚ)
    (hs32 : FloatVal.isBinary32 s) (h1 : 62500 ≤ s) (h2 : s ≤ 8000000) (ht : 0 ≤ t)
    (hfit : s * t * (1 + 1 / 2 ^ 24) < 128 * 4294967296) :
    ∃ P : ℚ, FloatVal.fmul32 (FloatVal.fmul32 (.fin 4) (.fin s)) (.fin t) = .fin P
      ∧ tx_rrc.num_blocks undef (.fin s) (.fin t) = ⌊P / 512⌋₊
      ∧ tx_rrc.num_symbols = 128 ∧ tx_rrc.k * 2 * tx_rrc.num_symbols = 512
      ∧ 128 * (tx_rrc.num_blocks undef (.fin s) (.fin t) : ℚ) ≤ s * t * (1 + 1 / 2 ^ 24)
      ∧ s * t * (1 - 1 / 2 ^ 24)
          < 128 * ((tx_rrc.num_blocks undef (.fin s) (.fin t) : ℚ) + 1) := by
  obtain ⟨P, hP, hnb, hlo, hhi⟩ := tx_rrc.tx_num_blocks_spec undef s t hs32 h1 h2 ht hfit
  refine ⟨P, hP, hnb, rfl, rfl, ?_, ?_⟩
  · rw [hnb]
    linarith
  · rw [hnb]
    linarith

/-- C4, amended, at the default symbol rate 62500 Hz (`15625 * 2 ^ 2`) and run time 5 s. -/
theorem tx_rrc_num_blocks_covers_run_time_witness :
    FloatVal.isBinary32 62500 ∧ (62500 : ℚ) ≤ 62500 ∧ (62500 : ℚ) ≤ 8000000 ∧ (0 : ℚ) ≤ 5
      ∧ (62500 * 5 * (1 + 1 / 2 ^ 24) : ℚ) < 128 * 4294967296
      ∧ 128 * (tx_rrc.num_blocks (fun _ => 0) (.fin 62500) (.fin 5) : ℚ)
          ≤ 62500 * 5 * (1 + 1 / 2 ^ 24)
      ∧ (62500 * 5 * (1 - 1 / 2 ^ 24) : ℚ)
          < 128 * ((tx_rrc.num_blocks (fun _ => 0) (.fin 62500) (.fin 5) : ℚ) + 1) :=
  have h32 : FloatVal.isBinary32 62500 := ⟨15625, 2, by norm_num, by norm_num, by norm_num,
    by norm_num⟩
  have h := tx_rrc_num_blocks_covers_run_time (fun _ => 0) 62500 5 h32
    (by norm_num) (by norm_num) (by norm_num) (by norm_num)
  ⟨h32, by norm_num, by norm_num, by norm_num, by norm_num,
    h.choose_spec.2.2.2.2.1, h.choose_spec.2.2.2.2.2⟩

/-! ## `ofdmframe_rx`: sequencing -/

namespace ofdmframe_rx

/-- The decimator and synchronizer calls of a block are not stream calls. -/
theorem filter_decim_calls {α : Type} (blk : ℕ → α) :
    (decim_calls blk).filter Event.isStream = [] := by
  rw [List.filter_eq_nil_iff]
  intro e he
  simp only [decim_calls, List.mem_flatMap, List.mem_range, List.mem_cons, List.mem_singleton,
    List.not_mem_nil, or_false] at he
  obtain ⟨j, _, rfl | rfl⟩ := he <;> simp [Event.isStream]

/-- The stream calls of the receive loop are one `gport_consume` of 512 samples per
iteration. -/
theorem filter_loop_calls {α : Type} (rx : ℕ → ℕ → α) (nb : ℕ) :
    ((List.range nb).flatMap (fun n =>
        Event.gport_consume 512 :: decim_calls (rx (n + 1)))).filter Event.isStream
      = List.replicate nb (Event.gport_consume 512) := by
  induction nb with
  | zero => simp
  | succ nb ih =>
    rw [List.range_succ, List.flatMap_append, List.filter_append, ih]
    simp [List.filter_cons, Event.isStream, filter_decim_calls, List.replicate_succ']

/-- The samples a decimator call of a run reads come from an iteration of the receive
loop. -/
theorem decim_mem_run {α : Type} (stack : ℕ) (undef : FloatVal → ℕ) (rx : ℕ → ℕ → α)
    (a : Args) (i : ℕ) (x0 x1 : Option α)
    (h : Event.resamp2_crcf_decim_execute i x0 x1 ∈ (run stack undef rx a).trace) :
    ∃ n j, n < num_blocks undef a.bandwidth a.num_seconds ∧ j < 256 ∧ i = 2 * j
      ∧ x0 = some (rx (n + 1) (2 * j)) ∧ x1 = some (rx (n + 1) (2 * j + 1)) := by
  by_cases hfit : 4 * a.M ≤ stack
  · rw [rx_run_eq stack undef rx a hfit] at h
    simp only [setup_calls, teardown_calls, decim_calls, List.mem_append, List.mem_cons,
      List.mem_flatMap, List.mem_range, List.mem_singleton, List.not_mem_nil, or_false,
      reduceCtorEq, false_or, or_self, Event.resamp2_crcf_decim_execute.injEq] at h
    obtain ⟨n, hn, j, hj, rfl, rfl, rfl⟩ := h
    exact ⟨n, j, hn, hj, rfl, rfl, rfl⟩
  · rw [run_eq_of_stack_lt stack undef rx a (not_le.mp hfit)] at h
    simp [config_calls] at h

/-- With the option `-M -1` the variable `M` is 4294967295 and the range checks pass. -/
theorem validate_M_minus_one :
    getopt_loop [Opt.M (-1)] defaults = some { defaults with M := 4294967295 }
      ∧ validate { defaults with M := 4294967295 } = none := by
  constructor
  · simp [getopt_loop, intToUInt32]
  · simp only [validate, defaults, rx_limits_eq.1, rx_limits_eq.2, FloatVal.gt, FloatVal.lt]
    norm_num

/-- With the option `-M -1` and a stack below 16 GiB the process is killed at the declaration
of `p`, after the calls that precede it. -/
theorem main_M_minus_one {α : Type} (stack : ℕ) (undef : FloatVal → ℕ) (rx : ℕ → ℕ → α)
    (hstack : stack < 17179869180) :
    main stack undef rx [Opt.M (-1)]
      = { trace := config_calls { defaults with M := 4294967295 }, status := none } := by
  rw [rx_main_of_validate_none stack undef rx _ _ validate_M_minus_one.1
    validate_M_minus_one.2]
  exact run_eq_of_stack_lt stack undef rx _ (by simpa using hstack)

end ofdmframe_rx

/-- C5 fails for an `M` too large for the stack: `ofdmframe_rx -M -1` passes the range checks
(only the bandwidth is checked) with `M = 4294967295`, the array `unsigned int p[M]` takes
17179869180 bytes, and on every stack smaller than that the process is killed before
`start_rx` is called. -/
theorem ofdmframe_rx_stream_calls_counterexample :
    ofdmframe_rx.getopt_loop [ofdmframe_rx.Opt.M (-1)] ofdmframe_rx.defaults
        = some { ofdmframe_rx.defaults with M := 4294967295 }
      ∧ ofdmframe_rx.validate { ofdmframe_rx.defaults with M := 4294967295 } = none
      ∧ ¬ ∃ (stack : ℕ) (undef : FloatVal → ℕ), stack < 17179869180
          ∧ ofdmframe_rx.Event.start_rx 0
            ∈ (ofdmframe_rx.main stack undef (fun _ _ => (0 : ℕ))
                [ofdmframe_rx.Opt.M (-1)]).trace := by
  refine ⟨ofdmframe_rx.validate_M_minus_one.1, ofdmframe_rx.validate_M_minus_one.2, ?_⟩
  rintro ⟨stack, undef, hstack, h⟩
  rw [ofdmframe_rx.main_M_minus_one stack undef _ hstack] at h
  simp [ofdmframe_rx.config_calls] at h

/-- C5, amended: in every run of `ofdmframe_rx` that passes the range checks and whose array
`p[M]` fits the stack, the calls that move received samples are `start_rx` once, then
`num_blocks + 1` calls of `gport_consume`, each for 512 samples, then `stop_rx` once, in this
order.  Every pair of samples given to the decimator was delivered by one of the
`num_blocks` calls of the main loop (call `n + 1` of `gport_consume`), never by the first,
settling call (call 0). -/
theorem ofdmframe_rx_stream_calls {α : Type} (stack : ℕ) (undef : FloatVal → ℕ)
    (rx : ℕ → ℕ → α) (opts : List ofdmframe_rx.Opt) (a : ofdmframe_rx.Args)
    (hp : ofdmframe_rx.getopt_loop opts ofdmframe_rx.defaults = some a)
    (hv : ofdmframe_rx.validate a = none) (hfit : 4 * a.M ≤ stack) :
    (ofdmframe_rx.main stack undef rx opts).trace.filter ofdmframe_rx.Event.isStream
        = ofdmframe_rx.Event.start_rx 0
            :: (List.replicate (ofdmframe_rx.num_blocks undef a.bandwidth a.num_seconds + 1)
                  (ofdmframe_rx.Event.gport_consume 512)
                ++ [ofdmframe_rx.Event.stop_rx 0])
      ∧ (ofdmframe_rx.main stack undef rx opts).status = some 0
      ∧ ∀ i x0 x1,
          ofdmframe_rx.Event.resamp2_crcf_decim_execute i x0 x1
              ∈ (ofdmframe_rx.main stack undef rx opts).trace →
            ∃ n j, n < ofdmframe_rx.num_blocks undef a.bandwidth a.num_seconds ∧ j < 256
              ∧ i = 2 * j ∧ x0 = some (rx (n + 1) (2 * j))
              ∧ x1 = some (rx (n + 1) (2 * j + 1)) := by
  rw [ofdmframe_rx.rx_main_of_validate_none stack undef rx opts a hp hv]
  refine ⟨?_, ?_, fun i x0 x1 h => ofdmframe_rx.decim_mem_run stack undef rx a i x0 x1 h⟩
  · rw [ofdmframe_rx.rx_run_eq stack undef rx a hfit]
    simp only [List.filter_append, ofdmframe_rx.filter_loop_calls]
    simp [ofdmframe_rx.setup_calls, ofdmframe_rx.teardown_calls, List.filter_cons,
      ofdmframe_rx.Event.isStream, List.replicate_succ]
  · rw [ofdmframe_rx.rx_run_eq stack undef rx a hfit]

/-- C5, amended, at the default command line of `ofdmframe_rx` with 8 MiB of stack, on a
stream whose samples are tagged with the call that delivered them and their index. -/
theorem ofdmframe_rx_stream_calls_witness :
    ofdmframe_rx.getopt_loop [] ofdmframe_rx.defaults = some ofdmframe_rx.defaults
      ∧ ofdmframe_rx.validate ofdmframe_rx.defaults = none
      ∧ 4 * ofdmframe_rx.defaults.M ≤ 8388608
      ∧ (ofdmframe_rx.main 8388608 (fun _ => 0) (fun c i => (c, i)) []).trace.filter
            ofdmframe_rx.Event.isStream
          = ofdmframe_rx.Event.start_rx 0
              :: (List.replicate
                    (ofdmframe_rx.num_blocks (fun _ => 0) ofdmframe_rx.defaults.bandwidth
                      ofdmframe_rx.defaults.num_seconds + 1)
                    (ofdmframe_rx.Event.gport_consume 512)
                  ++ [ofdmframe_rx.Event.stop_rx 0]) :=
  have hv : ofdmframe_rx.validate ofdmframe_rx.defaults = none := by
    simp only [ofdmframe_rx.validate, ofdmframe_rx.defaults, ofdmframe_rx.rx_limits_eq.1,
      ofdmframe_rx.rx_limits_eq.2, FloatVal.gt, FloatVal.lt]
    norm_num
  have hfit : 4 * ofdmframe_rx.defaults.M ≤ 8388608 := by
    simp [ofdmframe_rx.defaults]
  ⟨rfl, hv, hfit,
    (ofdmframe_rx_stream_calls 8388608 (fun _ => 0) (fun c i => (c, i)) []
      ofdmframe_rx.defaults rfl hv hfit).1⟩

/-! ## `ofdmframe_rx`: decimation -/

/-- In a list made of one pair of calls per index, the pair of index `j` sits at the
positions `2j` and `2j + 1`. -/
theorem getElem?_flatMap_pair {ε : Type} (f g : ℕ → ε) (n : ℕ) :
    ((List.range n).flatMap (fun j => [f j, g j])).length = 2 * n
      ∧ ∀ j < n,
          ((List.range n).flatMap (fun j => [f j, g j]))[2 * j]? = some (f j)
            ∧ ((List.range n).flatMap (fun j => [f j, g j]))[2 * j + 1]? = some (g j) := by
  induction n with
  | zero => simp
  | succ n ih =>
    obtain ⟨hlen, hget⟩ := ih
    rw [List.range_succ, List.flatMap_append]
    refine ⟨by simp [hlen]; omega, ?_⟩
    intro j hj
    by_cases hjn : j < n
    · rw [List.getElem?_append_left (by rw [hlen]; omega),
        List.getElem?_append_left (by rw [hlen]; omega)]
      exact hget j hjn
    · have hjeq : j = n := by omega
      subst hjeq
      rw [List.getElem?_append_right (by rw [hlen]),
        List.getElem?_append_right (by rw [hlen]; omega), hlen]
      simp

namespace ofdmframe_rx

/-- The synchronizer sample count of a trace adds over concatenation. -/
theorem sync_samples_append {α : Type} (l₁ l₂ : List (Event α)) :
    sync_samples (l₁ ++ l₂) = sync_samples l₁ + sync_samples l₂ := by
  induction l₁ with
  | nil => simp [sync_samples]
  | cons e l₁ ih => cases e <;> simp [sync_samples, ih, Nat.add_assoc]

/-- The calls that follow one `gport_consume` hand 256 samples to the synchronizer. -/
theorem sync_samples_decim_calls {α : Type} (blk : ℕ → α) :
    sync_samples (decim_calls blk) = 256 := by
  have h : ∀ n, sync_samples ((List.range n).flatMap (fun j =>
      [ Event.resamp2_crcf_decim_execute (2 * j) (some (blk (2 * j)))
          (some (blk (2 * j + 1))),
        Event.ofdmframesync_execute 1 ])) = n := by
    intro n
    induction n with
    | zero => simp [sync_samples]
    | succ n ih =>
      rw [List.range_succ, List.flatMap_append, sync_samples_append, ih]
      simp [sync_samples]
  exact h 256

/-- The receive loop of `nb` iterations hands `256 * nb` samples to the synchronizer. -/
theorem sync_samples_loop {α : Type} (rx : ℕ → ℕ → α) (nb : ℕ) :
    sync_samples ((List.range nb).flatMap (fun n =>
        Event.gport_consume 512 :: decim_calls (rx (n + 1)))) = 256 * nb := by
  induction nb with
  | zero => simp [sync_samples]
  | succ nb ih =>
    rw [List.range_succ, List.flatMap_append, sync_samples_append, ih]
    have hblk : sync_samples ([nb].flatMap (fun n =>
        Event.gport_consume 512 :: decim_calls (rx (n + 1)))) = 256 := by
      rw [List.flatMap_singleton]
      exact sync_samples_decim_calls (rx (nb + 1))
    rw [hblk]
    omega

end ofdmframe_rx

/-- C8 fails for an `M` too large for the stack: with `ofdmframe_rx -M -1` and a stack below
17179869180 bytes the process is killed at `unsigned int p[M]`, before the main loop, and the
synchronizer receives no sample, while `256 * num_blocks` is `256 * 1220`. -/
theorem ofdmframe_rx_decimation_counterexample :
    ofdmframe_rx.validate { ofdmframe_rx.defaults with M := 4294967295 } = none
      ∧ ¬ ∃ (stack : ℕ) (undef : FloatVal → ℕ), stack < 17179869180
          ∧ ofdmframe_rx.sync_samples
              (ofdmframe_rx.main stack undef (fun _ _ => (0 : ℕ))
                [ofdmframe_rx.Opt.M (-1)]).trace
            = 256 * ofdmframe_rx.num_blocks undef ofdmframe_rx.defaults.bandwidth
                ofdmframe_rx.defaults.num_seconds := by
  refine ⟨ofdmframe_rx.validate_M_minus_one.2, ?_⟩
  rintro ⟨stack, undef, hstack, h⟩
  rw [ofdmframe_rx.main_M_minus_one stack undef _ hstack] at h
  have hb : ofdmframe_rx.defaults.bandwidth = .fin 62500 := ofdmframe_rx.rx_limits_eq.1
  have ht : ofdmframe_rx.defaults.num_seconds = .fin 5 := rfl
  rw [hb, ht, ofdmframe_rx.num_blocks_default undef] at h
  simp [ofdmframe_rx.config_calls, ofdmframe_rx.sync_samples] at h

/-- C8, amended: each iteration of the main loop of `ofdmframe_rx` is one `gport_consume` of
512 samples followed by 512 calls: for `j = 0..255`, at position `2j` the half-band decimator
call given `&data_rx[2j]`, which reads the samples just received at the indices `2j` and
`2j + 1` (both below 512), and at position `2j + 1` an `ofdmframesync_execute` call of one
sample.  Over a whole run that passed the range checks and whose array `p[M]` fits the stack,
the synchronizer receives `256 * num_blocks` samples. -/
theorem ofdmframe_rx_decimation_by_two {α : Type} (stack : ℕ) (undef : FloatVal → ℕ)
    (rx : ℕ → ℕ → α) (st : ofdmframe_rx.State α) (a : ofdmframe_rx.Args)
    (hfit : 4 * a.M ≤ stack) :
    (ofdmframe_rx.decimate
        (ofdmframe_rx.gport_consume rx ofdmframe_rx.rx_buffer_length st)).trace
        = st.trace ++ (ofdmframe_rx.Event.gport_consume 512
            :: ofdmframe_rx.decim_calls (rx st.consumed))
      ∧ (ofdmframe_rx.decim_calls (rx st.consumed)).length = 512
      ∧ (∀ j < 256,
          2 * j + 1 < ofdmframe_rx.rx_buffer_length
            ∧ (ofdmframe_rx.decim_calls (rx st.consumed))[2 * j]?
                = some (ofdmframe_rx.Event.resamp2_crcf_decim_execute (2 * j)
                    (some (rx st.consumed (2 * j))) (some (rx st.consumed (2 * j + 1))))
            ∧ (ofdmframe_rx.decim_calls (rx st.consumed))[2 * j + 1]?
                = some (ofdmframe_rx.Event.ofdmframesync_execute 1))
      ∧ ofdmframe_rx.sync_samples (ofdmframe_rx.run stack undef rx a).trace
          = 256 * ofdmframe_rx.num_blocks undef a.bandwidth a.num_seconds := by
  have hpair := getElem?_flatMap_pair
    (fun j => ofdmframe_rx.Event.resamp2_crcf_decim_execute (2 * j)
      (some (rx st.consumed (2 * j))) (some (rx st.consumed (2 * j + 1))))
    (fun _ => (ofdmframe_rx.Event.ofdmframesync_execute 1 : ofdmframe_rx.Event α)) 256
  refine ⟨?_, hpair.1, ?_, ?_⟩
  · rw [ofdmframe_rx.rx_block_eq]
  · intro j hj
    exact ⟨by simp only [ofdmframe_rx.rx_buffer_length]; omega, hpair.2 j hj⟩
  · rw [ofdmframe_rx.rx_run_eq stack undef rx a hfit]
    simp only [ofdmframe_rx.sync_samples_append, ofdmframe_rx.sync_samples_loop]
    simp [ofdmframe_rx.setup_calls, ofdmframe_rx.teardown_calls, ofdmframe_rx.sync_samples]

/-- C8, amended, at the default parameters of `ofdmframe_rx` with 8 MiB of stack, for the
first iteration of the main loop on a stream whose samples are tagged with the call that
delivered them and their index. -/
theorem ofdmframe_rx_decimation_by_two_witness :
    4 * ofdmframe_rx.defaults.M ≤ 8388608
      ∧ ofdmframe_rx.sync_samples
          (ofdmframe_rx.run 8388608 (fun _ => 0) (fun c i => (c, i))
            ofdmframe_rx.defaults).trace
        = 256 * ofdmframe_rx.num_blocks (fun _ => 0) ofdmframe_rx.defaults.bandwidth
            ofdmframe_rx.defaults.num_seconds :=
  have hfit : 4 * ofdmframe_rx.defaults.M ≤ 8388608 := by
    simp [ofdmframe_rx.defaults]
  ⟨hfit,
    (ofdmframe_rx_decimation_by_two 8388608 (fun _ => 0) (fun c i => (c, i))
      { trace := [], data_rx := fun _ => none, consumed := 1 } ofdmframe_rx.defaults
      hfit).2.2.2⟩

/-! ## `tx_rrc`: buffer indices -/

namespace tx_rrc

/-- When no resampler call stores more than two samples, `num_written_total` is at most
twice the number of calls made. -/
theorem written_le (nw : ℕ → ℕ) (hnw : ∀ n, nw n ≤ 2) (n : ℕ) : written nw n ≤ 2 * n := by
  induction n with
  | zero => simp [written]
  | succ n ih =>
    have h := hnw n
    have hmod : (written nw n + nw n) % 4294967296 ≤ written nw n + nw n := Nat.mod_le _ _
    simp only [written]
    omega

/-- When no resampler call stores more than two samples, every array element that a call of
a block iteration touches lies inside its array. -/
theorem accesses_in_bounds (nw : ℕ → ℕ) (hnw : ∀ n, nw n ≤ 2) :
    ∀ e ∈ block_calls nw, ∀ p ∈ e.accesses, p.2 < p.1.size := by
  intro e he p hp
  simp only [block_calls, List.mem_append, List.mem_flatMap, List.mem_range, List.mem_cons,
    List.mem_singleton, List.not_mem_nil, or_false] at he
  rcases he with (((⟨n, hn, rfl | rfl⟩ | ⟨n, hn, rfl⟩) | ⟨n, hn, rfl⟩) | ⟨n, hn, rfl⟩) | rfl
  · simp [Event.accesses] at hp
  · simp only [Event.accesses, List.mem_singleton] at hp
    subst hp
    simpa [Buf.size, num_symbols] using hn
  · simp only [Event.accesses, List.mem_cons, List.mem_singleton, List.not_mem_nil,
      or_false] at hp
    rcases hp with rfl | rfl | rfl <;> simp only [Buf.size, num_symbols] <;> omega
  · simp only [Event.accesses, List.mem_cons, List.mem_singleton, List.not_mem_nil,
      or_false] at hp
    rcases hp with rfl | rfl | rfl <;> simp only [Buf.size, num_symbols] <;> omega
  · simp only [Event.accesses, List.mem_cons, List.mem_map, List.mem_range] at hp
    rcases hp with rfl | ⟨j, hj, rfl⟩
    · simpa [Buf.size] using hn
    · have h1 := written_le nw hnw n
      have h2 := hnw n
      simp only [Buf.size]
      omega
  · simp only [Event.accesses, List.mem_map, List.mem_range] at hp
    obtain ⟨j, hj, rfl⟩ := hp
    have h1 := written_le nw hnw 512
    simp only [Buf.size]
    omega

end tx_rrc

/-- C10: a block iteration of `tx_rrc` makes exactly the calls `block_calls`: the RRC
interpolator is given `symbols[n]` and `&interp_out[2n]` for `n < 128`, the half-band
interpolator `interp_out[n]` and `&data_tx[2n]` for `n < 256`, the resampler `data_tx[n]` and
`&data_resamp[num_written_total]` for `n < 512`.  When each `resamp_crcf_execute` call
writes at most 2 samples, every element these calls touch is inside its array,
`num_written_total + num_written <= 1024` at every resampler call, and the count passed to
`gport2_produce` is at most 1024.  For every `m` with `1 <= m <= 20` the filter length
`h_len` is `4m + 1`, between 5 and 81. -/
theorem tx_rrc_block_in_bounds (nw : ℕ → ℕ) (tr : List tx_rrc.Event) (m : ℕ)
    (hnw : ∀ n, nw n ≤ 2) (hm1 : 1 ≤ m) (hm2 : m ≤ 20) :
    tx_rrc.block nw tr = tr ++ tx_rrc.block_calls nw
      ∧ (∀ e ∈ tx_rrc.block_calls nw, ∀ p ∈ e.accesses, p.2 < p.1.size)
      ∧ (∀ n < 512, tx_rrc.written nw n + nw n ≤ 1024)
      ∧ (∀ c, tx_rrc.Event.gport2_produce c ∈ tx_rrc.block_calls nw → c ≤ 1024)
      ∧ tx_rrc.h_len m = 4 * m + 1 ∧ 5 ≤ tx_rrc.h_len m ∧ tx_rrc.h_len m ≤ 81 := by
  have hlen : tx_rrc.h_len m = 4 * m + 1 := by
    simp only [tx_rrc.h_len, tx_rrc.k]
    omega
  refine ⟨tx_rrc.tx_block_eq nw tr, tx_rrc.accesses_in_bounds nw hnw, ?_, ?_, hlen, ?_, ?_⟩
  · intro n hn
    have h1 := tx_rrc.written_le nw hnw n
    have h2 := hnw n
    omega
  · intro c hc
    simp only [tx_rrc.block_calls, List.mem_append, List.mem_flatMap, List.mem_range,
      List.mem_cons, List.mem_singleton, List.not_mem_nil, or_false, reduceCtorEq,
      and_false, exists_false, false_or, or_self,
      tx_rrc.Event.gport2_produce.injEq] at hc
    have h1 := tx_rrc.written_le nw hnw 512
    omega
  · omega
  · omega

/-- C10, for a resampler that alternates between one and two output samples, and `m = 3`. -/
theorem tx_rrc_block_in_bounds_witness :
    (∀ n, (fun n => 1 + n % 2) n ≤ 2) ∧ 1 ≤ 3 ∧ 3 ≤ 20
      ∧ tx_rrc.block (fun n => 1 + n % 2) [] = [] ++ tx_rrc.block_calls (fun n => 1 + n % 2)
      ∧ (∀ e ∈ tx_rrc.block_calls (fun n => 1 + n % 2), ∀ p ∈ e.accesses, p.2 < p.1.size)
      ∧ tx_rrc.h_len 3 = 4 * 3 + 1 :=
  have hnw : ∀ n, (fun n => 1 + n % 2) n ≤ 2 := fun n => by
    show 1 + n % 2 ≤ 2
    omega
  have h := tx_rrc_block_in_bounds (fun n => 1 + n % 2) [] 3 hnw (by norm_num) (by norm_num)
  ⟨hnw, by norm_num, by norm_num, h.1, h.2.1, h.2.2.2.2.1⟩
